import Mathlib

/-!
Verification development for a collection of PyTorch fragments:
the quantization `QConfigMapping` class, the `torch._refs` reference
operator implementations (`_broadcast_shapes`, `chunk`, `cat`), the
CI rebase script, and the experimental FX-graph CSE pass.

Each Python fragment is embedded as executable Lean definitions that
mirror the source line by line; properties of the fragments are then
proved about these definitions.
-/

namespace QCfg

/-!
Embedding of `torch/ao/quantization/qconfig_mapping.py`.

A `QConfigAny` (an optional QConfig object) is modelled as `Option Nat`;
the `Nat` stands for the identity of the QConfig object, since the class
only stores and returns these values without inspecting them.
`object_type` keys (`Union[Callable, str]`) are modelled as `String`.
Python `OrderedDict` fields are modelled as association lists in
insertion order; `OrderedDict` assignment `d[k] = v` is `odSet`.
-/

/-- `d[k] = v` on an insertion-ordered dictionary: if `k` is present its
value is replaced in place (keeping its position), otherwise `(k, v)` is
appended at the end.  This is exactly Python dict assignment semantics. -/
def odSet {K Q : Type} [DecidableEq K] : List (K × Q) → K → Q → List (K × Q)
  | [], k, v => [(k, v)]
  | p :: rest, k, v =>
    if p.1 = k then (k, v) :: rest else p :: odSet rest k v

/-- The keys of an ordered dictionary, in order. -/
def odKeys {K Q : Type} (d : List (K × Q)) : List K := d.map Prod.fst

@[simp] theorem odKeys_nil {K Q : Type} : odKeys ([] : List (K × Q)) = [] := rfl

@[simp] theorem odKeys_cons {K Q : Type} (p : K × Q) (tl : List (K × Q)) :
    odKeys (p :: tl) = p.1 :: odKeys tl := rfl

@[simp] theorem odKeys_append {K Q : Type} (a b : List (K × Q)) :
    odKeys (a ++ b) = odKeys a ++ odKeys b := by simp [odKeys]

/-- Lookup in an ordered dictionary (first match). -/
def odLookup {K Q : Type} [DecidableEq K] : List (K × Q) → K → Option Q
  | [], _ => none
  | p :: rest, k => if p.1 = k then some p.2 else odLookup rest k

/-- `QConfigMapping.__init__`: a global qconfig plus four ordered mappings. -/
structure QConfigMapping where
  global_qconfig : Option Nat
  object_type_qconfigs : List (String × Option Nat)
  module_name_regex_qconfigs : List (String × Option Nat)
  module_name_qconfigs : List (String × Option Nat)
  module_name_object_type_order_qconfigs : List ((String × String × Nat) × Option Nat)
deriving DecidableEq

/-- `QConfigMapping()`. -/
def QConfigMapping.init : QConfigMapping := ⟨none, [], [], [], []⟩

def QConfigMapping.set_global (m : QConfigMapping) (q : Option Nat) : QConfigMapping :=
  { m with global_qconfig := q }

def QConfigMapping.set_object_type (m : QConfigMapping) (k : String) (q : Option Nat) :
    QConfigMapping :=
  { m with object_type_qconfigs := odSet m.object_type_qconfigs k q }

def QConfigMapping.set_module_name_regex (m : QConfigMapping) (k : String) (q : Option Nat) :
    QConfigMapping :=
  { m with module_name_regex_qconfigs := odSet m.module_name_regex_qconfigs k q }

def QConfigMapping.set_module_name (m : QConfigMapping) (k : String) (q : Option Nat) :
    QConfigMapping :=
  { m with module_name_qconfigs := odSet m.module_name_qconfigs k q }

def QConfigMapping.set_module_name_object_type_order (m : QConfigMapping)
    (name : String) (objType : String) (index : Nat) (q : Option Nat) : QConfigMapping :=
  { m with module_name_object_type_order_qconfigs :=
      odSet m.module_name_object_type_order_qconfigs (name, objType, index) q }

/-- The dictionary produced by `to_dict` / consumed by `from_dict`.
`from_dict` treats every key as optional (`GLOBAL_DICT_KEY in qconfig_dict`,
`qconfig_dict.get(KEY, [])`), so every field is wrapped in `Option`:
`none` means the key is absent. -/
structure QConfigDict where
  globalEntry : Option (Option Nat)
  object_type : Option (List (String × Option Nat))
  module_name_regex : Option (List (String × Option Nat))
  module_name : Option (List (String × Option Nat))
  module_name_object_type_order : Option (List (String × String × Nat × Option Nat))
deriving DecidableEq

/-- `QConfigMapping.to_dict`: all five keys are present; the ordered
mappings become lists of tuples, and the `(module name, object type,
index)` keys are flattened into 4-tuples by `(*k, v)`. -/
def QConfigMapping.to_dict (m : QConfigMapping) : QConfigDict :=
  { globalEntry := some m.global_qconfig
    object_type := some m.object_type_qconfigs
    module_name_regex := some m.module_name_regex_qconfigs
    module_name := some m.module_name_qconfigs
    module_name_object_type_order :=
      some (m.module_name_object_type_order_qconfigs.map
        (fun p => (p.1.1, p.1.2.1, p.1.2.2, p.2))) }

/-- `QConfigMapping.from_dict`: starts from `cls()` and replays the
entries through the setters, in the order of the source (global first,
then object types, regexes, module names, and the order entries). -/
def QConfigMapping.from_dict (d : QConfigDict) : QConfigMapping :=
  (d.module_name_object_type_order.getD []).foldl
    (fun c p => c.set_module_name_object_type_order p.1 p.2.1 p.2.2.1 p.2.2.2)
    ((d.module_name.getD []).foldl (fun c p => c.set_module_name p.1 p.2)
      ((d.module_name_regex.getD []).foldl (fun c p => c.set_module_name_regex p.1 p.2)
        ((d.object_type.getD []).foldl (fun c p => c.set_object_type p.1 p.2)
          (match d.globalEntry with
            | some q => QConfigMapping.init.set_global q
            | none => QConfigMapping.init))))

/-- `OrderedDict` invariant: the keys of each of the four ordered
mappings are pairwise distinct (guaranteed for any mapping built
through the class API, since dict assignment never duplicates a key). -/
def QConfigMapping.wf (m : QConfigMapping) : Prop :=
  (odKeys m.object_type_qconfigs).Nodup ∧
  (odKeys m.module_name_regex_qconfigs).Nodup ∧
  (odKeys m.module_name_qconfigs).Nodup ∧
  (odKeys m.module_name_object_type_order_qconfigs).Nodup

instance (m : QConfigMapping) : Decidable m.wf := by
  unfold QConfigMapping.wf; infer_instance

theorem odSet_of_not_mem {K Q : Type} [DecidableEq K] (d : List (K × Q)) (k : K) (v : Q)
    (h : k ∉ odKeys d) : odSet d k v = d ++ [(k, v)] := by
  induction d with
  | nil => rfl
  | cons p tl ih =>
    simp only [odKeys_cons, List.mem_cons] at h
    push_neg at h
    simp only [odSet, List.cons_append]
    rw [if_neg (fun he => h.1 he.symm), ih h.2]

theorem odSet_keys_of_mem {K Q : Type} [DecidableEq K] (d : List (K × Q)) (k : K) (v : Q)
    (h : k ∈ odKeys d) : odKeys (odSet d k v) = odKeys d := by
  induction d with
  | nil => simp at h
  | cons p tl ih =>
    by_cases hk : p.1 = k
    · simp [odSet, hk]
    · simp only [odKeys_cons, List.mem_cons] at h
      rcases h with h | h
      · exact absurd h.symm hk
      · simp only [odSet, if_neg hk, odKeys_cons]
        rw [ih h]

theorem odLookup_odSet_self {K Q : Type} [DecidableEq K] (d : List (K × Q)) (k : K) (v : Q) :
    odLookup (odSet d k v) k = some v := by
  induction d with
  | nil => simp [odSet, odLookup]
  | cons p tl ih =>
    by_cases hk : p.1 = k
    · simp [odSet, hk, odLookup]
    · simp [odSet, hk, odLookup, ih]

theorem odLookup_odSet_other {K Q : Type} [DecidableEq K] (d : List (K × Q)) (k k2 : K) (v : Q)
    (h : k2 ≠ k) : odLookup (odSet d k v) k2 = odLookup d k2 := by
  induction d with
  | nil => simp [odSet, odLookup, Ne.symm h]
  | cons p tl ih =>
    by_cases hk : p.1 = k
    · subst hk
      simp only [odSet, if_pos rfl, odLookup]
      rw [if_neg (fun he => h he.symm), if_neg (fun he => h he.symm)]
    · simp only [odSet, if_neg hk, odLookup]
      by_cases hk2 : p.1 = k2
      · simp [hk2]
      · simp [hk2, ih]

/-- Replaying an ordered dictionary with distinct keys entry by entry
(`d[k] = v` for each stored pair, starting from `acc`) appends it. -/
theorem foldl_odSet_reconstruct {K Q : Type} [DecidableEq K] (d : List (K × Q))
    (hnd : (odKeys d).Nodup) :
    ∀ acc : List (K × Q), (∀ k, k ∈ odKeys d → k ∉ odKeys acc) →
      d.foldl (fun c p => odSet c p.1 p.2) acc = acc ++ d := by
  induction d with
  | nil => intro acc _; simp
  | cons p tl ih =>
    intro acc hdisj
    simp only [List.foldl_cons]
    have hnm : p.1 ∉ odKeys acc := hdisj p.1 (by simp)
    rw [odSet_of_not_mem acc p.1 p.2 hnm]
    simp only [odKeys_cons, List.nodup_cons] at hnd
    have hres := ih hnd.2 (acc ++ [(p.1, p.2)]) ?_
    · rw [hres, List.append_assoc]
      rfl
    · intro k hk
      simp only [odKeys_append, List.mem_append, odKeys_cons, odKeys_nil, List.mem_singleton]
      push_neg
      refine ⟨hdisj k (by simp [hk]), fun he => ?_⟩
      exact hnd.1 (he ▸ hk)

theorem foldl_set_object_type (l : List (String × Option Nat)) (conf : QConfigMapping) :
    l.foldl (fun c p => c.set_object_type p.1 p.2) conf =
      { conf with
        object_type_qconfigs := l.foldl (fun d p => odSet d p.1 p.2)
          conf.object_type_qconfigs } := by
  induction l generalizing conf with
  | nil => rfl
  | cons p tl ih => simp only [List.foldl_cons]; rw [ih]; rfl

theorem foldl_set_module_name_regex (l : List (String × Option Nat)) (conf : QConfigMapping) :
    l.foldl (fun c p => c.set_module_name_regex p.1 p.2) conf =
      { conf with
        module_name_regex_qconfigs := l.foldl (fun d p => odSet d p.1 p.2)
          conf.module_name_regex_qconfigs } := by
  induction l generalizing conf with
  | nil => rfl
  | cons p tl ih => simp only [List.foldl_cons]; rw [ih]; rfl

theorem foldl_set_module_name (l : List (String × Option Nat)) (conf : QConfigMapping) :
    l.foldl (fun c p => c.set_module_name p.1 p.2) conf =
      { conf with
        module_name_qconfigs := l.foldl (fun d p => odSet d p.1 p.2)
          conf.module_name_qconfigs } := by
  induction l generalizing conf with
  | nil => rfl
  | cons p tl ih => simp only [List.foldl_cons]; rw [ih]; rfl

theorem foldl_set_mnoto (l : List (String × String × Nat × Option Nat)) (conf : QConfigMapping) :
    l.foldl (fun c p => c.set_module_name_object_type_order p.1 p.2.1 p.2.2.1 p.2.2.2) conf =
      { conf with
        module_name_object_type_order_qconfigs := l.foldl
          (fun d p => odSet d (p.1, p.2.1, p.2.2.1) p.2.2.2)
          conf.module_name_object_type_order_qconfigs } := by
  induction l generalizing conf with
  | nil => rfl
  | cons p tl ih => simp only [List.foldl_cons]; rw [ih]; rfl

theorem foldl_odSet_of_nil_start {K Q : Type} [DecidableEq K] (d : List (K × Q))
    (hnd : (odKeys d).Nodup) :
    d.foldl (fun c p => odSet c p.1 p.2) [] = d := by
  simpa using foldl_odSet_reconstruct d hnd [] (by simp)

theorem foldl_odSet_map_quad (t : List ((String × String × Nat) × Option Nat))
    (hnd : (odKeys t).Nodup) :
    (t.map (fun p => (p.1.1, p.1.2.1, p.1.2.2, p.2))).foldl
      (fun d p => odSet d (p.1, p.2.1, p.2.2.1) p.2.2.2) [] = t := by
  rw [List.foldl_map]
  exact foldl_odSet_of_nil_start t hnd

theorem qconfig_mapping_ext (x y : QConfigMapping)
    (e1 : x.global_qconfig = y.global_qconfig)
    (e2 : x.object_type_qconfigs = y.object_type_qconfigs)
    (e3 : x.module_name_regex_qconfigs = y.module_name_regex_qconfigs)
    (e4 : x.module_name_qconfigs = y.module_name_qconfigs)
    (e5 : x.module_name_object_type_order_qconfigs =
      y.module_name_object_type_order_qconfigs) : x = y := by
  cases x; cases y; simp_all

/-- C5: `QConfigMapping.from_dict ∘ QConfigMapping.to_dict` is the identity:
the reconstructed mapping has the same global qconfig and the same four
ordered mappings, with identical key order and values. -/
theorem qconfig_mapping_roundtrip (m : QConfigMapping) (h : m.wf) :
    QConfigMapping.from_dict m.to_dict = m := by
  obtain ⟨h1, h2, h3, h4⟩ := h
  rcases m with ⟨g, o, r, nm, t⟩
  unfold QConfigMapping.from_dict QConfigMapping.to_dict
  simp only [Option.getD_some]
  rw [foldl_set_object_type, foldl_set_module_name_regex, foldl_set_module_name,
    foldl_set_mnoto]
  refine qconfig_mapping_ext _ _ rfl ?_ ?_ ?_ ?_
  · exact foldl_odSet_of_nil_start o h1
  · exact foldl_odSet_of_nil_start r h2
  · exact foldl_odSet_of_nil_start nm h3
  · exact foldl_odSet_map_quad t h4

/-- C5 witness: the roundtrip at a concrete mapping. -/
theorem qconfig_mapping_roundtrip_witness :
    (QConfigMapping.init.set_global (some 7) |>.set_object_type "Linear" (some 1)
      |>.set_module_name_regex "foo.*" (some 2) |>.set_module_name "m1" (some 3)
      |>.set_module_name_object_type_order "foo.bar" "linear" 0 (some 4)).wf ∧
    QConfigMapping.from_dict
      (QConfigMapping.init.set_global (some 7) |>.set_object_type "Linear" (some 1)
        |>.set_module_name_regex "foo.*" (some 2) |>.set_module_name "m1" (some 3)
        |>.set_module_name_object_type_order "foo.bar" "linear" 0 (some 4)).to_dict =
      (QConfigMapping.init.set_global (some 7) |>.set_object_type "Linear" (some 1)
        |>.set_module_name_regex "foo.*" (some 2) |>.set_module_name "m1" (some 3)
        |>.set_module_name_object_type_order "foo.bar" "linear" 0 (some 4)) :=
  ⟨by decide, qconfig_mapping_roundtrip _ (by decide)⟩

/-- C10: every setter either appends a fresh key at the end of its ordered
mapping, or, when the key is already registered, replaces the stored
qconfig while preserving the key order (in particular the original
insertion position of the key). -/
theorem qconfig_setter_order :
    (∀ (m : QConfigMapping) (k : String) (q : Option Nat),
      (k ∉ odKeys m.object_type_qconfigs →
        (m.set_object_type k q).object_type_qconfigs =
          m.object_type_qconfigs ++ [(k, q)]) ∧
      (k ∈ odKeys m.object_type_qconfigs →
        odKeys (m.set_object_type k q).object_type_qconfigs =
            odKeys m.object_type_qconfigs ∧
          odLookup (m.set_object_type k q).object_type_qconfigs k = some q ∧
          ∀ k2, k2 ≠ k → odLookup (m.set_object_type k q).object_type_qconfigs k2 =
            odLookup m.object_type_qconfigs k2)) ∧
    (∀ (m : QConfigMapping) (k : String) (q : Option Nat),
      (k ∉ odKeys m.module_name_regex_qconfigs →
        (m.set_module_name_regex k q).module_name_regex_qconfigs =
          m.module_name_regex_qconfigs ++ [(k, q)]) ∧
      (k ∈ odKeys m.module_name_regex_qconfigs →
        odKeys (m.set_module_name_regex k q).module_name_regex_qconfigs =
            odKeys m.module_name_regex_qconfigs ∧
          odLookup (m.set_module_name_regex k q).module_name_regex_qconfigs k = some q ∧
          ∀ k2, k2 ≠ k →
            odLookup (m.set_module_name_regex k q).module_name_regex_qconfigs k2 =
              odLookup m.module_name_regex_qconfigs k2)) ∧
    (∀ (m : QConfigMapping) (k : String) (q : Option Nat),
      (k ∉ odKeys m.module_name_qconfigs →
        (m.set_module_name k q).module_name_qconfigs =
          m.module_name_qconfigs ++ [(k, q)]) ∧
      (k ∈ odKeys m.module_name_qconfigs →
        odKeys (m.set_module_name k q).module_name_qconfigs =
            odKeys m.module_name_qconfigs ∧
          odLookup (m.set_module_name k q).module_name_qconfigs k = some q ∧
          ∀ k2, k2 ≠ k → odLookup (m.set_module_name k q).module_name_qconfigs k2 =
            odLookup m.module_name_qconfigs k2)) ∧
    (∀ (m : QConfigMapping) (k : String × String × Nat) (q : Option Nat),
      (k ∉ odKeys m.module_name_object_type_order_qconfigs →
        QConfigMapping.module_name_object_type_order_qconfigs
            (m.set_module_name_object_type_order k.1 k.2.1 k.2.2 q) =
          m.module_name_object_type_order_qconfigs ++ [(k, q)]) ∧
      (k ∈ odKeys m.module_name_object_type_order_qconfigs →
        odKeys (QConfigMapping.module_name_object_type_order_qconfigs
              (m.set_module_name_object_type_order k.1 k.2.1 k.2.2 q)) =
            odKeys m.module_name_object_type_order_qconfigs ∧
          odLookup (QConfigMapping.module_name_object_type_order_qconfigs
              (m.set_module_name_object_type_order k.1 k.2.1 k.2.2 q)) k = some q ∧
          ∀ k2, k2 ≠ k →
            odLookup (QConfigMapping.module_name_object_type_order_qconfigs
                (m.set_module_name_object_type_order k.1 k.2.1 k.2.2 q)) k2 =
              odLookup m.module_name_object_type_order_qconfigs k2)) := by
  refine ⟨?_, ?_, ?_, ?_⟩ <;>
    intro m k q <;>
    constructor
  · exact fun h => odSet_of_not_mem _ k q h
  · exact fun h => ⟨odSet_keys_of_mem _ k q h, odLookup_odSet_self _ k q,
      fun k2 h2 => odLookup_odSet_other _ k k2 q h2⟩
  · exact fun h => odSet_of_not_mem _ k q h
  · exact fun h => ⟨odSet_keys_of_mem _ k q h, odLookup_odSet_self _ k q,
      fun k2 h2 => odLookup_odSet_other _ k k2 q h2⟩
  · exact fun h => odSet_of_not_mem _ k q h
  · exact fun h => ⟨odSet_keys_of_mem _ k q h, odLookup_odSet_self _ k q,
      fun k2 h2 => odLookup_odSet_other _ k k2 q h2⟩
  · exact fun h => odSet_of_not_mem _ k q h
  · exact fun h => ⟨odSet_keys_of_mem _ k q h, odLookup_odSet_self _ k q,
      fun k2 h2 => odLookup_odSet_other _ k k2 q h2⟩

/-- C10 witness: re-setting an already-registered regex keeps the key
order (the re-set regex stays first) and updates its stored value. -/
theorem qconfig_setter_order_witness :
    odKeys (QConfigMapping.module_name_regex_qconfigs
        ((QConfigMapping.init.set_module_name_regex "foo.*" (some 1)
          |>.set_module_name_regex "bar.*" (some 2)).set_module_name_regex "foo.*" (some 9))) =
      ["foo.*", "bar.*"] ∧
    odLookup (QConfigMapping.module_name_regex_qconfigs
        ((QConfigMapping.init.set_module_name_regex "foo.*" (some 1)
          |>.set_module_name_regex "bar.*" (some 2)).set_module_name_regex "foo.*" (some 9)))
      "foo.*" = some (some 9) := by
  have h := (qconfig_setter_order.2.1
    (QConfigMapping.init.set_module_name_regex "foo.*" (some 1)
      |>.set_module_name_regex "bar.*" (some 2)) "foo.*" (some 9)).2 (by decide)
  exact ⟨by rw [h.1]; decide, h.2.1⟩

end QCfg

namespace Refs

/-!
Embedding of `torch/_refs/__init__.py`.

Shapes are sequences of dimension lengths, modelled as `List Int`;
a `None` argument of `_broadcast_shapes` is modelled as `none`.
-/

inductive BErr where
  | valueError
  | runtimeError
deriving DecidableEq

/-- One step of the inner loop of `_broadcast_shapes` at one aligned
position: `c` is `common_shape[idx]` and `s` is `shape[idx]`.  Returns
the new `common_shape[idx]`, or the error the source raises there. -/
def combineDim (c s : Int) : Except BErr Int :=
  if c = 1 then
    if s < 0 then .error .valueError else .ok s
  else if s ≠ 1 then
    if c ≠ s then .error .runtimeError else .ok c
  else .ok c

/-- The inner `for idx in range(-1, -1 - len(shape), -1)` loop of
`_broadcast_shapes`, acting on the reversed `common_shape` and the
reversed input shape, so that the trailing positions come first exactly
as the negative indices do in the source.  `common_shape` always has at
least `len(shape)` entries (it has maximal rank), so the third pattern
is unreachable on the source's inputs. -/
def updRev : List Int → List Int → Except BErr (List Int)
  | rc, [] => .ok rc
  | [], _ :: _ => .ok []
  | c :: rc, s :: rs =>
    match combineDim c s with
    | .error e => .error e
    | .ok c2 =>
      match updRev rc rs with
      | .error e => .error e
      | .ok rc2 => .ok (c2 :: rc2)

/-- The outer `for shape in shapes` loop of `_broadcast_shapes`. -/
def bcastLoop : List Int → List (List Int) → Except BErr (List Int)
  | rc, [] => .ok rc
  | rc, s :: rest =>
    match updRev rc s.reverse with
    | .error e => .error e
    | .ok rc2 => bcastLoop rc2 rest

/-- `_broadcast_shapes(*_shapes)`: drops `None` arguments, returns `None`
when no shape remains, and otherwise folds every shape into
`common_shape` (initialised to `1`s at the maximal input rank), raising
`ValueError` on a negative length broadcast against `1` and
`RuntimeError` on a length conflicting with a previous non-`1` length.
The mutable `common_shape` list is carried in reversed form. -/
def broadcast_shapes (xs : List (Option (List Int))) : Except BErr (Option (List Int)) :=
  let shapes := xs.filterMap id
  if shapes.isEmpty then .ok none
  else
    let maxRank := shapes.foldl (fun m s => max m s.length) 0
    match bcastLoop (List.replicate maxRank 1) shapes with
    | .error e => .error e
    | .ok rc => .ok (some rc.reverse)

theorem combineDim_valueError (c s : Int) (h : combineDim c s = .error .valueError) :
    c = 1 ∧ s < 0 := by
  unfold combineDim at h
  split at h
  · split at h
    · exact ⟨by assumption, by assumption⟩
    · exact absurd h (by simp)
  · split at h
    · split at h
      · exact absurd h (by simp)
      · exact absurd h (by simp)
    · exact absurd h (by simp)

theorem combineDim_runtimeError (c s : Int) (h : combineDim c s = .error .runtimeError) :
    c ≠ 1 ∧ s ≠ 1 ∧ c ≠ s := by
  unfold combineDim at h
  split at h
  · split at h
    · exact absurd h (by simp)
    · exact absurd h (by simp)
  · split at h
    · split at h
      · exact ⟨by assumption, by assumption, by assumption⟩
      · exact absurd h (by simp)
    · exact absurd h (by simp)

theorem combineDim_ok (c s v : Int) (h : combineDim c s = .ok v) :
    (c = 1 ∧ v = s ∧ 0 ≤ s) ∨ (c ≠ 1 ∧ v = c ∧ (s = 1 ∨ s = c)) := by
  unfold combineDim at h
  split at h
  · split at h
    · exact absurd h (by simp)
    · left
      refine ⟨by assumption, by simpa using h.symm, by omega⟩
  · split at h
    · split at h
      · exact absurd h (by simp)
      · right
        refine ⟨by assumption, by simpa using h.symm, .inr (by omega)⟩
    · right
      refine ⟨by assumption, by simpa using h.symm, .inl (by omega)⟩

theorem updRev_ok (rs : List Int) : ∀ (rc rc2 : List Int), updRev rc rs = .ok rc2 →
    rs.length ≤ rc.length →
    rc2.length = rc.length ∧
    (∀ k, rs.length ≤ k → rc2.get? k = rc.get? k) ∧
    (∀ k s, rs.get? k = some s → ∃ c v, rc.get? k = some c ∧
      combineDim c s = .ok v ∧ rc2.get? k = some v) := by
  induction rs with
  | nil =>
    intro rc rc2 h _
    simp only [updRev] at h
    cases h
    exact ⟨rfl, fun k _ => rfl, fun k s hs => by simp at hs⟩
  | cons s rs ih =>
    intro rc rc2 h hlen
    match rc with
    | [] => simp at hlen
    | c :: rc =>
      simp only [updRev] at h
      split at h
      · exact absurd h (by simp)
      · rename_i c2 hc
        split at h
        · exact absurd h (by simp)
        · rename_i rc3 hrest
          simp only [Except.ok.injEq] at h
          subst h
          have hlen2 : rs.length ≤ rc.length := by simpa using hlen
          obtain ⟨e1, e2, e3⟩ := ih rc rc3 hrest hlen2
          refine ⟨by simpa using e1, ?_, ?_⟩
          · intro k hk
            match k with
            | 0 => simp at hk
            | k + 1 =>
              simp only [List.get?]
              exact e2 k (by simpa using hk)
          · intro k sv hs
            match k with
            | 0 =>
              simp only [List.get?] at hs ⊢
              cases hs
              exact ⟨c, c2, rfl, hc, rfl⟩
            | k + 1 =>
              simp only [List.get?] at hs ⊢
              exact e3 k sv hs

theorem updRev_error (rs : List Int) : ∀ (rc : List Int) (e : BErr),
    updRev rc rs = .error e →
    ∃ k c s, rc.get? k = some c ∧ rs.get? k = some s ∧ combineDim c s = .error e := by
  induction rs with
  | nil => intro rc e h; simp [updRev] at h
  | cons s rs ih =>
    intro rc e h
    match rc with
    | [] => simp [updRev] at h
    | c :: rc =>
      simp only [updRev] at h
      split at h
      · rename_i e2 hc
        simp only [Except.error.injEq] at h
        subst h
        exact ⟨0, c, s, rfl, rfl, hc⟩
      · rename_i c2 hc
        split at h
        · rename_i e2 hrest
          simp only [Except.error.injEq] at h
          subst h
          obtain ⟨k, c3, s3, h1, h2, h3⟩ := ih rc _ hrest
          exact ⟨k + 1, c3, s3, by simpa using h1, by simpa using h2, h3⟩
        · exact absurd h (by simp)

/-- Invariant of the outer loop of `_broadcast_shapes`: every entry of
the (reversed) common shape is either still `1`, with every processed
shape `1` or absent at that aligned position, or a non-negative non-`1`
length coming from some processed shape, with every processed shape `1`,
absent, or equal to it there. -/
def ColInv (processed : List (List Int)) (rc : List Int) : Prop :=
  ∀ k c, rc.get? k = some c →
    (c = 1 ∧ ∀ s ∈ processed, ∀ v, s.reverse.get? k = some v → v = 1) ∨
    (c ≠ 1 ∧ 0 ≤ c ∧ (∃ s ∈ processed, s.reverse.get? k = some c) ∧
      ∀ s ∈ processed, ∀ v, s.reverse.get? k = some v → v = 1 ∨ v = c)

theorem ColInv_step (proc : List (List Int)) (rc rc2 s : List Int)
    (hinv : ColInv proc rc) (h : updRev rc s.reverse = .ok rc2)
    (hlen : s.length ≤ rc.length) : ColInv (proc ++ [s]) rc2 := by
  obtain ⟨e1, e2, e3⟩ := updRev_ok s.reverse rc rc2 h (by simpa using hlen)
  intro k c hk
  by_cases hks : k < s.length
  · obtain ⟨sv, hsv⟩ : ∃ sv, s.reverse.get? k = some sv :=
      ⟨_, List.get?_eq_get (by simpa using hks)⟩
    obtain ⟨c0, v, hc0, hcomb, hv⟩ := e3 k sv hsv
    have hvc : v = c := by rw [hv] at hk; exact Option.some.inj hk
    rcases combineDim_ok c0 sv v hcomb with ⟨hc01, hvs, hnn⟩ | ⟨hc0ne, hvc0, hsor⟩
    · -- common entry was 1: every processed shape is 1 or absent here
      have hproc : ∀ t ∈ proc, ∀ w, t.reverse.get? k = some w → w = 1 := by
        rcases hinv k c0 hc0 with ⟨_, hall⟩ | ⟨hne, _⟩
        · exact hall
        · exact absurd hc01 hne
      have hcsv : c = sv := by rw [← hvc, hvs]
      by_cases hsv1 : sv = 1
      · left
        refine ⟨by rw [hcsv, hsv1], ?_⟩
        intro t ht w hw
        rcases List.mem_append.mp ht with ht | ht
        · exact hproc t ht w hw
        · have hts : t = s := by simpa using ht
          subst hts
          rw [hsv] at hw
          rw [(Option.some.inj hw).symm, hsv1]
      · right
        rw [hcsv]
        refine ⟨hsv1, hnn, ⟨s, by simp, hsv⟩, ?_⟩
        intro t ht w hw
        rcases List.mem_append.mp ht with ht | ht
        · exact .inl (hproc t ht w hw)
        · have hts : t = s := by simpa using ht
          subst hts
          rw [hsv] at hw
          exact .inr (Option.some.inj hw).symm
    · -- common entry was a non-1 length c0; it is kept
      have hcc0 : c = c0 := by rw [← hvc, hvc0]
      rw [hcc0]
      rcases hinv k c0 hc0 with ⟨hc1, _⟩ | ⟨hne, hnn, ⟨t0, ht0, ht0e⟩, hall⟩
      · exact absurd hc1 hc0ne
      · right
        refine ⟨hne, hnn, ⟨t0, by simp [ht0], ht0e⟩, ?_⟩
        intro t ht w hw
        rcases List.mem_append.mp ht with ht | ht
        · exact hall t ht w hw
        · have hts : t = s := by simpa using ht
          subst hts
          rw [hsv] at hw
          rw [(Option.some.inj hw).symm]
          exact hsor
  · -- beyond the rank of s: the entry and the invariant are unchanged
    have hkk : rc2.get? k = rc.get? k := e2 k (by simpa using Nat.le_of_not_lt hks)
    have hsr : s.reverse.get? k = none := by
      rw [List.get?_eq_none]
      simpa using Nat.le_of_not_lt hks
    have hk0 : rc.get? k = some c := by rw [← hkk]; exact hk
    rcases hinv k c hk0 with ⟨hc1, hall⟩ | ⟨hne, hnn, hex, hall⟩
    · left
      refine ⟨hc1, ?_⟩
      intro t ht w hw
      rcases List.mem_append.mp ht with ht | ht
      · exact hall t ht w hw
      · have : t = s := by simpa using ht
        subst this
        rw [hsr] at hw
        exact absurd hw (by simp)
    · right
      obtain ⟨t0, ht0, ht0e⟩ := hex
      refine ⟨hne, hnn, ⟨t0, by simp [ht0], ht0e⟩, ?_⟩
      intro t ht w hw
      rcases List.mem_append.mp ht with ht | ht
      · exact hall t ht w hw
      · have : t = s := by simpa using ht
        subst this
        rw [hsr] at hw
        exact absurd hw (by simp)

theorem bcastLoop_ok (shapes : List (List Int)) :
    ∀ (proc : List (List Int)) (rc r : List Int),
    bcastLoop rc shapes = .ok r → ColInv proc rc →
    (∀ s ∈ shapes, s.length ≤ rc.length) →
    r.length = rc.length ∧ ColInv (proc ++ shapes) r := by
  induction shapes with
  | nil =>
    intro proc rc r h hinv _
    simp only [bcastLoop] at h
    cases h
    exact ⟨rfl, by simpa using hinv⟩
  | cons s rest ih =>
    intro proc rc r h hinv hlen
    simp only [bcastLoop] at h
    split at h
    · exact absurd h (by simp)
    · rename_i rc2 hupd
      have hslen : s.length ≤ rc.length := hlen s (by simp)
      obtain ⟨e1, _, _⟩ := updRev_ok s.reverse rc rc2 hupd (by simpa using hslen)
      have hinv2 := ColInv_step proc rc rc2 s hinv hupd hslen
      have hlen2 : ∀ t ∈ rest, t.length ≤ rc2.length := by
        intro t ht
        rw [e1]
        exact hlen t (by simp [ht])
      obtain ⟨r1, r2⟩ := ih (proc ++ [s]) rc2 r h hinv2 hlen2
      refine ⟨by rw [r1, e1], ?_⟩
      simpa [List.append_assoc] using r2

theorem bcastLoop_error (shapes : List (List Int)) :
    ∀ (proc : List (List Int)) (rc : List Int) (e : BErr),
    bcastLoop rc shapes = .error e → ColInv proc rc →
    (∀ s ∈ shapes, s.length ≤ rc.length) →
    (e = .valueError → ∃ s ∈ shapes, ∃ v ∈ s, v < 0) ∧
    (e = .runtimeError → ∃ s ∈ proc ++ shapes, ∃ t ∈ shapes, ∃ k a b,
      s.reverse.get? k = some a ∧ t.reverse.get? k = some b ∧
      a ≠ 1 ∧ b ≠ 1 ∧ a ≠ b) := by
  induction shapes with
  | nil => intro proc rc e h _ _; simp [bcastLoop] at h
  | cons s rest ih =>
    intro proc rc e h hinv hlen
    simp only [bcastLoop] at h
    split at h
    · rename_i e0 hupd
      have he : e0 = e := by simpa using h
      subst he
      obtain ⟨k, c, sv, hc, hsv, hcomb⟩ := updRev_error s.reverse rc e0 hupd
      have hsvmem : sv ∈ s := by
        have := List.get?_mem hsv
        simpa using this
      constructor
      · intro hval
        subst hval
        obtain ⟨hc1, hneg⟩ := combineDim_valueError c sv hcomb
        exact ⟨s, by simp, sv, hsvmem, hneg⟩
      · intro hrt
        subst hrt
        obtain ⟨hcne, hsne, hne⟩ := combineDim_runtimeError c sv hcomb
        rcases hinv k c hc with ⟨hc1, _⟩ | ⟨_, _, ⟨t0, ht0, ht0e⟩, _⟩
        · exact absurd hc1 hcne
        · exact ⟨t0, by simp [ht0], s, by simp, k, c, sv, ht0e, hsv, hcne, hsne, hne⟩
    · rename_i rc2 hupd
      have hslen : s.length ≤ rc.length := hlen s (by simp)
      obtain ⟨e1, _, _⟩ := updRev_ok s.reverse rc rc2 hupd (by simpa using hslen)
      have hinv2 := ColInv_step proc rc rc2 s hinv hupd hslen
      have hlen2 : ∀ t ∈ rest, t.length ≤ rc2.length := by
        intro t ht
        rw [e1]
        exact hlen t (by simp [ht])
      obtain ⟨ihv, ihr⟩ := ih (proc ++ [s]) rc2 e h hinv2 hlen2
      constructor
      · intro hval
        obtain ⟨t, ht, v, hv, hneg⟩ := ihv hval
        exact ⟨t, by simp [ht], v, hv, hneg⟩
      · intro hrt
        obtain ⟨t1, ht1, t2, ht2, k, a, b, r1, r2, r3, r4, r5⟩ := ihr hrt
        refine ⟨t1, ?_, t2, by simp [ht2], k, a, b, r1, r2, r3, r4, r5⟩
        simpa [List.append_assoc] using ht1

theorem le_foldl_max (shapes : List (List Int)) :
    ∀ init : Nat, init ≤ shapes.foldl (fun m s => max m s.length) init ∧
      ∀ s ∈ shapes, s.length ≤ shapes.foldl (fun m s => max m s.length) init := by
  induction shapes with
  | nil => intro init; exact ⟨le_refl _, by simp⟩
  | cons t rest ih =>
    intro init
    simp only [List.foldl_cons]
    obtain ⟨h1, h2⟩ := ih (max init t.length)
    refine ⟨le_trans (Nat.le_max_left _ _) h1, ?_⟩
    intro s hs
    rcases List.mem_cons.mp hs with hs | hs
    · subst hs
      exact le_trans (Nat.le_max_right _ _) h1
    · exact h2 s hs

theorem ColInv_init (M : Nat) : ColInv [] (List.replicate M 1) := by
  intro k c hk
  left
  exact ⟨List.eq_of_mem_replicate (List.get?_mem hk), by simp⟩

/-- C6: `_broadcast_shapes` implements the standard broadcasting rule.
It returns `None` exactly when every argument is `None`; on success the
result's rank is the maximal input rank, and, aligning from the trailing
dimension, each result entry is `1` when every input is `1` or absent
there, and otherwise equals the non-`1` size that every non-`1` input
carries at that position; `ValueError` is only raised when some input
has a negative length, and `RuntimeError` only when two inputs carry
different sizes, both different from `1`, at the same aligned position. -/
theorem broadcast_shapes_correct (xs : List (Option (List Int))) :
    (broadcast_shapes xs = .ok none ↔ xs.filterMap id = []) ∧
    (∀ r, broadcast_shapes xs = .ok (some r) →
      r.length = (xs.filterMap id).foldl (fun m s => max m s.length) 0 ∧
      ∀ k, k < r.length →
        ((∀ s ∈ xs.filterMap id, ∀ v, s.reverse.get? k = some v → v = 1) →
          r.reverse.get? k = some 1) ∧
        (∀ s ∈ xs.filterMap id, ∀ v, s.reverse.get? k = some v → v ≠ 1 →
          r.reverse.get? k = some v)) ∧
    (broadcast_shapes xs = .error .valueError →
      ∃ s ∈ xs.filterMap id, ∃ v ∈ s, v < 0) ∧
    (broadcast_shapes xs = .error .runtimeError →
      ∃ s ∈ xs.filterMap id, ∃ t ∈ xs.filterMap id, ∃ k a b,
        s.reverse.get? k = some a ∧ t.reverse.get? k = some b ∧
        a ≠ 1 ∧ b ≠ 1 ∧ a ≠ b) := by
  by_cases hemp : (xs.filterMap id).isEmpty
  · have he : xs.filterMap id = [] := List.isEmpty_iff.mp hemp
    simp [broadcast_shapes, hemp, he]
  · have he : ¬xs.filterMap id = [] := fun h => hemp (by simp [h])
    have hres : broadcast_shapes xs =
        match bcastLoop (List.replicate
            ((xs.filterMap id).foldl (fun m s => max m s.length) 0) 1)
            (xs.filterMap id) with
        | .error e => .error e
        | .ok rc => .ok (some rc.reverse) := by
      simp only [broadcast_shapes, if_neg hemp]
    have hlens : ∀ s ∈ xs.filterMap id, s.length ≤ (List.replicate
        ((xs.filterMap id).foldl (fun m s => max m s.length) 0) (1 : Int)).length := by
      intro s hs
      rw [List.length_replicate]
      exact (le_foldl_max (xs.filterMap id) 0).2 s hs
    cases hloop : bcastLoop (List.replicate
        ((xs.filterMap id).foldl (fun m s => max m s.length) 0) 1) (xs.filterMap id) with
    | error e =>
      rw [hloop] at hres
      have herr := bcastLoop_error (xs.filterMap id) [] _ e hloop (ColInv_init _) hlens
      refine ⟨?_, ?_, ?_, ?_⟩
      · rw [hres]
        constructor
        · intro h; exact absurd h (by simp)
        · intro h; exact absurd h he
      · intro r hr
        rw [hres] at hr
        exact absurd hr (by simp)
      · intro hv
        rw [hres] at hv
        have : e = .valueError := by simpa using hv
        exact herr.1 this
      · intro hv
        rw [hres] at hv
        have he2 : e = .runtimeError := by simpa using hv
        obtain ⟨s, hs, t, ht, w⟩ := herr.2 he2
        exact ⟨s, by simpa using hs, t, ht, w⟩
    | ok rc =>
      rw [hloop] at hres
      obtain ⟨hlenr, hinv⟩ :=
        bcastLoop_ok (xs.filterMap id) [] _ rc hloop (ColInv_init _) hlens
      rw [List.length_replicate] at hlenr
      have hinv2 : ColInv (xs.filterMap id) rc := by simpa using hinv
      refine ⟨?_, ?_, ?_, ?_⟩
      · rw [hres]
        constructor
        · intro h; exact absurd h (by simp)
        · intro h; exact absurd h he
      · intro r hr
        rw [hres] at hr
        have hrrc : r = rc.reverse := by simpa using hr.symm
        subst hrrc
        have hrev : rc.reverse.reverse = rc := List.reverse_reverse rc
        refine ⟨by simp [hlenr], ?_⟩
        intro k hk
        have hkrc : k < rc.length := by simpa using hk
        obtain ⟨c, hck⟩ : ∃ c, rc.get? k = some c := ⟨_, List.get?_eq_get hkrc⟩
        constructor
        · intro hall
          rcases hinv2 k c hck with ⟨hc1, _⟩ | ⟨hne, _, ⟨s, hs, hse⟩, _⟩
          · rw [hrev, hck, hc1]
          · exact absurd (hall s hs c hse) hne
        · intro s hs v hv hvne
          rcases hinv2 k c hck with ⟨_, hall⟩ | ⟨_, _, _, hall⟩
          · exact absurd (hall s hs v hv) hvne
          · rcases hall s hs v hv with h1 | h1
            · exact absurd h1 hvne
            · rw [hrev, hck, h1]
      · intro hv
        rw [hres] at hv
        exact absurd hv (by simp)
      · intro hv
        rw [hres] at hv
        exact absurd hv (by simp)

/-- C6 witness: broadcasting the shapes `[5, 1]` and `[3]` (with a
`None` argument dropped) gives `[5, 3]`, whose trailing entry is the
non-`1` input size `3`. -/
theorem broadcast_shapes_correct_witness :
    broadcast_shapes [some [5, 1], some [3], none] = .ok (some [5, 3]) ∧
    ([5, 3] : List Int).length =
      (([some [5, 1], some [3], none].filterMap id).foldl
        (fun m s => max m s.length) 0) ∧
    ([5, 3] : List Int).reverse.get? 0 = some 3 := by
  have h := (broadcast_shapes_correct [some [5, 1], some [3], none]).2.1 [5, 3] (by rfl)
  exact ⟨by rfl, h.1, (h.2 0 (by decide)).2 [3] (by decide) 3 (by decide) (by decide)⟩

/-!
Embedding of the `chunk` / `cat` / `narrow` reference implementations.

A tensor is a shape (list of dimension lengths) and its row-major
flattened data.  The helpers `utils.canonicalize_dim`, `prims.cat` and
`prims.slice_in_dim` live in `torch._prims_common` / `torch._prims`,
which are not part of this repository; they are modelled from the spec
below with their standard meanings.
-/

structure Tensor (V : Type) where
  shape : List Nat
  data : List V
deriving DecidableEq

instance {V : Type} : Inhabited (Tensor V) := ⟨⟨[], []⟩⟩

inductive RErr where
  | valueError
  | indexError
  | zeroDivisionError
deriving DecidableEq

/-- Modelled from the spec: `utils.canonicalize_dim(rank, idx)` (from
`torch._prims_common`, not part of this repository) wraps a possibly
negative dimension index into `[0, rank)` and raises for an
out-of-range index. -/
def canonicalize_dim (rank : Nat) (idx : Int) : Except RErr Nat :=
  let i := if idx < 0 then idx + rank else idx
  if 0 ≤ i ∧ i < (rank : Int) then .ok i.toNat else .error .indexError

/-- `jb n f = f 0 ++ f 1 ++ ... ++ f (n-1)`: row-major data assembled
from `n` consecutive blocks. -/
def jb {V : Type} : Nat → (Nat → List V) → List V
  | 0, _ => []
  | n + 1, f => f 0 ++ jb n (fun i => f (i + 1))

/-- Modelled from the spec: `prims.slice_in_dim(a, start, start + len,
axis=d)` for a canonical dimension `d`.  Row-major layout: for each of
the `outer` blocks (one per index of the dimensions before `d`, each of
`mid * inner` elements, where `mid` is the size of dimension `d` and
`inner` the row-major size after it), keep the `len * inner` elements
starting at offset `start * inner`. -/
def slice_in_dim {V : Type} (a : Tensor V) (d start len : Nat) : Tensor V :=
  let inner := (a.shape.drop (d + 1)).prod
  let mid := a.shape.getD d 0
  let outer := (a.shape.take d).prod
  { shape := a.shape.set d len
    data := jb outer (fun o =>
      (((a.data.drop (o * (mid * inner))).take (mid * inner)).drop (start * inner)).take
        (len * inner)) }

/-- `torch._refs.narrow`: canonicalize the dimension, then slice. -/
def narrow {V : Type} (a : Tensor V) (dim : Int) (start len : Nat) : Except RErr (Tensor V) :=
  match canonicalize_dim a.shape.length dim with
  | .error e => .error e
  | .ok d => .ok (slice_in_dim a d start len)

theorem canonicalize_dim_canon (rank d : Nat) (h : d < rank) :
    canonicalize_dim rank (d : Int) = .ok d := by
  unfold canonicalize_dim
  rw [if_neg (show ¬((d : Int) < 0) by omega)]
  rw [if_pos (show 0 ≤ (d : Int) ∧ (d : Int) < (rank : Int) from
    ⟨by omega, by exact_mod_cast h⟩)]
  simp

/-- `narrow` at an already-canonical dimension is `slice_in_dim`
(used to inline the `narrow` calls made by `chunk`). -/
theorem narrow_canon {V : Type} (a : Tensor V) (d start len : Nat)
    (h : d < a.shape.length) :
    narrow a (d : Int) start len = .ok (slice_in_dim a d start len) := by
  unfold narrow
  rw [canonicalize_dim_canon _ _ h]

/-- Modelled from the spec: `prims.cat(tensors, dim)` for a canonical
dimension `d`: all tensors must agree on every dimension except `d`;
the result stacks, for each outer block index, the corresponding blocks
of all tensors. -/
def prims_cat {V : Type} (ts : List (Tensor V)) (d : Nat) : Except RErr (Tensor V) :=
  match ts with
  | [] => .error .valueError
  | t0 :: rest =>
    if rest.all (fun t => t.shape.length == t0.shape.length &&
        t.shape.eraseIdx d == t0.shape.eraseIdx d) then
      let inner := (t0.shape.drop (d + 1)).prod
      let outer := (t0.shape.take d).prod
      let total := ((t0 :: rest).map (fun t => t.shape.getD d 0)).sum
      .ok { shape := t0.shape.set d total
            data := jb outer (fun o =>
              ((t0 :: rest).map (fun t =>
                (t.data.drop (o * (t.shape.getD d 0 * inner))).take
                  (t.shape.getD d 0 * inner))).flatten) }
    else .error .valueError

/-- `torch._refs.cat`: rejects an empty tensor list, canonicalizes the
dimension against the first tensor, filters out one-dimensional empty
tensors, returns a fresh empty tensor when everything was filtered, and
otherwise defers to `prims.cat`.  (The device/dtype bookkeeping of the
source has no counterpart in this model.) -/
def cat {V : Type} (ts : List (Tensor V)) (dim : Int) : Except RErr (Tensor V) :=
  match ts with
  | [] => .error .valueError
  | t0 :: _ =>
    match canonicalize_dim t0.shape.length dim with
    | .error e => .error e
    | .ok d =>
      match ts.filter (fun t => !(t.shape.length == 1 && t.shape.prod == 0)) with
      | [] => .ok ⟨[0], []⟩
      | u0 :: us => prims_cat (u0 :: us) d

/-- `torch._refs.chunk`: `chunks` must be positive; the chunk size is
`ceil(length / chunks)` (exact integer ceiling; the source computes it
by `math.ceil` on a float quotient, which agrees for all realistic
sizes), there are `length // chunk_size` full chunks and a final
`length % chunk_size` tail chunk when that remainder is nonzero.  Each
piece is produced by `narrow`, whose dimension canonicalization is
inlined via `narrow_canon`.  When `length` is `0` the source divides by
`chunk_size = 0` and raises `ZeroDivisionError`. -/
def chunk {V : Type} (a : Tensor V) (chunks : Nat) (dim : Int) :
    Except RErr (List (Tensor V)) :=
  if chunks = 0 then .error .valueError
  else
    match canonicalize_dim a.shape.length dim with
    | .error e => .error e
    | .ok d =>
      let len := a.shape.getD d 0
      let chunk_size := (len + chunks - 1) / chunks
      if chunk_size = 0 then .error .zeroDivisionError
      else
        let full_chunks := len / chunk_size
        let tail_chunk_size := len % chunk_size
        let pieces := (List.range full_chunks).map
          (fun i => slice_in_dim a d (i * chunk_size) chunk_size)
        .ok (if tail_chunk_size ≠ 0 then
          pieces ++ [slice_in_dim a d (full_chunks * chunk_size) tail_chunk_size]
        else pieces)

theorem take_set_self {α : Type} (l : List α) (d : Nat) (x : α) :
    (l.set d x).take d = l.take d := by
  rw [List.set_eq_take_append_cons_drop]
  split
  · rename_i hd
    rw [List.take_left' (by simp; omega)]
  · rfl

theorem drop_succ_set_self {α : Type} (l : List α) (d : Nat) (x : α) :
    (l.set d x).drop (d + 1) = l.drop (d + 1) :=
  List.drop_set_of_lt x l (by omega)

theorem getD_set_self {α : Type} : ∀ (l : List α) (d : Nat) (x y : α), d < l.length →
    (l.set d x).getD d y = x
  | [], _, _, _, h => absurd h (by simp)
  | _ :: _, 0, _, _, _ => rfl
  | _ :: l, d + 1, x, y, h => getD_set_self l d x y (by simpa using h)

theorem set_getD_self {α : Type} : ∀ (l : List α) (d : Nat) (y : α), d < l.length →
    l.set d (l.getD d y) = l
  | [], _, _, h => absurd h (by simp)
  | _ :: _, 0, _, _ => rfl
  | a :: l, d + 1, y, h => by
    show a :: l.set d (l.getD d y) = a :: l
    rw [set_getD_self l d y (by simpa using h)]

theorem eraseIdx_set {α : Type} (l : List α) (d : Nat) (x : α) :
    (l.set d x).eraseIdx d = l.eraseIdx d := by
  rw [List.eraseIdx_eq_take_drop_succ, List.eraseIdx_eq_take_drop_succ,
    take_set_self, drop_succ_set_self]

theorem drop_eq_getD_cons {α : Type} : ∀ (l : List α) (d : Nat) (y : α), d < l.length →
    l.drop d = l.getD d y :: l.drop (d + 1)
  | [], _, _, h => absurd h (by simp)
  | _ :: _, 0, _, _ => rfl
  | a :: l, d + 1, y, h => by
    show l.drop d = _
    rw [drop_eq_getD_cons l d y (by simpa using h)]
    rfl

/-- Row-major decomposition of a shape's element count at dimension `d`. -/
theorem prod_split (l : List Nat) (d : Nat) (h : d < l.length) :
    l.prod = (l.take d).prod * (l.getD d 0 * (l.drop (d + 1)).prod) := by
  conv_lhs => rw [← List.take_append_drop d l]
  rw [List.prod_append, drop_eq_getD_cons l d 0 h, List.prod_cons]

theorem jb_congr {V : Type} : ∀ (n : Nat) (f g : Nat → List V),
    (∀ i, i < n → f i = g i) → jb n f = jb n g
  | 0, _, _, _ => rfl
  | n + 1, f, g, h => by
    show f 0 ++ jb n (fun i => f (i + 1)) = g 0 ++ jb n (fun i => g (i + 1))
    rw [h 0 (by omega), jb_congr n _ _ (fun i hi => h (i + 1) (by omega))]

theorem jb_length {V : Type} : ∀ (n M : Nat) (f : Nat → List V),
    (∀ i, i < n → (f i).length = M) → (jb n f).length = n * M
  | 0, _, _, _ => by simp [jb]
  | n + 1, M, f, h => by
    show (f 0 ++ jb n (fun i => f (i + 1))).length = _
    rw [List.length_append, h 0 (by omega),
      jb_length n M _ (fun i hi => h (i + 1) (by omega))]
    ring

theorem jb_extract {V : Type} : ∀ (n M : Nat) (f : Nat → List V),
    (∀ i, i < n → (f i).length = M) → ∀ k, k < n →
    ((jb n f).drop (k * M)).take M = f k
  | 0, _, _, _, k, hk => absurd hk (by omega)
  | n + 1, M, f, h, 0, _ => by
    rw [Nat.zero_mul]
    show ((f 0 ++ jb n (fun i => f (i + 1))).drop 0).take M = f 0
    rw [List.drop_zero, List.take_append_of_le_length (by rw [h 0 (by omega)]),
      List.take_of_length_le (by rw [h 0 (by omega)])]
  | n + 1, M, f, h, k + 1, hk => by
    show ((f 0 ++ jb n (fun i => f (i + 1))).drop ((k + 1) * M)).take M = f (k + 1)
    have h0 : (f 0).length = M := h 0 (by omega)
    have : (k + 1) * M = (f 0).length + k * M := by rw [h0]; ring
    rw [this, List.drop_append]
    exact jb_extract n M _ (fun i hi => h (i + 1) (by omega)) k (by omega)

theorem jb_blocks_self {V : Type} : ∀ (n M : Nat) (xs : List V), xs.length = n * M →
    jb n (fun o => (xs.drop (o * M)).take M) = xs
  | 0, M, xs, h => by
    have : xs = [] := List.eq_nil_of_length_eq_zero (by omega)
    rw [this]; rfl
  | n + 1, M, xs, h => by
    show (xs.drop (0 * M)).take M ++ jb n (fun i => (xs.drop ((i + 1) * M)).take M) = xs
    have he : jb n (fun i => (xs.drop ((i + 1) * M)).take M) =
        jb n (fun i => ((xs.drop M).drop (i * M)).take M) := by
      apply jb_congr
      intro i _
      rw [List.drop_drop]
      congr 1
      ring
    rw [he, jb_blocks_self n M (xs.drop M) (by simp [h, Nat.succ_mul])]
    simp

theorem jb_eq_range_map_join {V : Type} : ∀ (n : Nat) (f : Nat → List V),
    jb n f = ((List.range n).map f).flatten
  | 0, _ => rfl
  | n + 1, f => by
    show f 0 ++ jb n (fun i => f (i + 1)) = _
    rw [List.range_succ_eq_map, List.map_cons, List.flatten_cons, List.map_map,
      jb_eq_range_map_join n (fun i => f (i + 1))]
    rfl

/-- Contiguous slices of `a` along dimension `d`: one slice per entry
of `lens`, each starting where the previous one ended. -/
def slices {V : Type} (a : Tensor V) (d : Nat) : Nat → List Nat → List (Tensor V)
  | _, [] => []
  | s, l :: ls => slice_in_dim a d s l :: slices a d (s + l) ls

theorem slices_length {V : Type} (a : Tensor V) (d : Nat) :
    ∀ (lens : List Nat) (s : Nat), (slices a d s lens).length = lens.length
  | [], _ => rfl
  | _ :: ls, s => by
    show (slices a d _ ls).length + 1 = _
    rw [slices_length a d ls]
    rfl

theorem mem_slices {V : Type} (a : Tensor V) (d : Nat) :
    ∀ (lens : List Nat) (s : Nat) (p : Tensor V), p ∈ slices a d s lens →
    ∃ l ∈ lens, p.shape = a.shape.set d l
  | [], _, _, h => absurd h (by simp [slices])
  | l :: ls, s, p, h => by
    rcases List.mem_cons.mp h with h | h
    · exact ⟨l, by simp, by rw [h]; rfl⟩
    · obtain ⟨l2, hl2, he⟩ := mem_slices a d ls (s + l) p h
      exact ⟨l2, by simp [hl2], he⟩

theorem map_getD_slices {V : Type} (a : Tensor V) (d : Nat) (hd : d < a.shape.length) :
    ∀ (lens : List Nat) (s : Nat),
    (slices a d s lens).map (fun t => t.shape.getD d 0) = lens
  | [], _ => rfl
  | l :: ls, s => by
    show (slice_in_dim a d s l).shape.getD d 0 :: _ = _
    rw [show (slice_in_dim a d s l).shape = a.shape.set d l from rfl,
      getD_set_self a.shape d l 0 hd, map_getD_slices a d hd ls (s + l)]

theorem slices_replicate {V : Type} (a : Tensor V) (d c : Nat) :
    ∀ (n : Nat) (s : Nat) (rest : List Nat),
    slices a d s (List.replicate n c ++ rest) =
      ((List.range n).map (fun i => slice_in_dim a d (s + i * c) c)) ++
        slices a d (s + n * c) rest
  | 0, s, rest => by simp [slices]
  | n + 1, s, rest => by
    show slice_in_dim a d s c :: slices a d (s + c) (List.replicate n c ++ rest) = _
    rw [slices_replicate a d c n (s + c) rest, List.range_succ_eq_map, List.map_cons,
      List.map_map]
    simp only [Nat.zero_mul, Nat.add_zero, List.cons_append]
    congr 2
    · apply List.map_congr_left
      intro i _
      have : s + (i + 1) * c = s + c + i * c := by ring
      rw [Function.comp_apply, this]
    · congr 1
      ring

/-- Data-block length of one slice: for every outer index `o`, the
`o`-th block of `slice_in_dim a d s l` has exactly `l * inner`
elements, provided the slice stays inside dimension `d`. -/
theorem slice_block_length {V : Type} (a : Tensor V) (d s l : Nat)
    (hwf : a.data.length = a.shape.prod) (hd : d < a.shape.length)
    (hsl : s + l ≤ a.shape.getD d 0) :
    ∀ o, o < (a.shape.take d).prod →
    ((((a.data.drop (o * (a.shape.getD d 0 * (a.shape.drop (d + 1)).prod))).take
        (a.shape.getD d 0 * (a.shape.drop (d + 1)).prod)).drop
          (s * (a.shape.drop (d + 1)).prod)).take
            (l * (a.shape.drop (d + 1)).prod)).length =
      l * (a.shape.drop (d + 1)).prod := by
  intro o ho
  have hdata : a.data.length =
      (a.shape.take d).prod * (a.shape.getD d 0 * (a.shape.drop (d + 1)).prod) := by
    rw [hwf]; exact prod_split a.shape d hd
  set inner := (a.shape.drop (d + 1)).prod with hinner
  set M := a.shape.getD d 0 * inner with hM
  have h1 : o * M + M ≤ (a.shape.take d).prod * M := by
    have := Nat.mul_le_mul_right M (show o + 1 ≤ (a.shape.take d).prod by omega)
    calc o * M + M = (o + 1) * M := by ring
    _ ≤ _ := this
  have h2 : s * inner + l * inner ≤ M := by
    calc s * inner + l * inner = (s + l) * inner := by ring
    _ ≤ a.shape.getD d 0 * inner := Nat.mul_le_mul_right inner hsl
  simp only [List.length_take, List.length_drop, hdata]
  omega

/-- At every outer index, extracting a slice's own block recovers the
matching segment of `a`'s block. -/
theorem slice_block_extract {V : Type} (a : Tensor V) (d s l : Nat)
    (hwf : a.data.length = a.shape.prod) (hd : d < a.shape.length)
    (hsl : s + l ≤ a.shape.getD d 0) (o : Nat) (ho : o < (a.shape.take d).prod) :
    (((slice_in_dim a d s l).data.drop
        (o * (l * (a.shape.drop (d + 1)).prod))).take
          (l * (a.shape.drop (d + 1)).prod)) =
      (((a.data.drop (o * (a.shape.getD d 0 * (a.shape.drop (d + 1)).prod))).take
        (a.shape.getD d 0 * (a.shape.drop (d + 1)).prod)).drop
          (s * (a.shape.drop (d + 1)).prod)).take
            (l * (a.shape.drop (d + 1)).prod) := by
  exact jb_extract (a.shape.take d).prod (l * (a.shape.drop (d + 1)).prod) _
    (fun i hi => slice_block_length a d s l hwf hd hsl i hi) o ho

/-- At every outer index `o`, concatenating the blocks `prims.cat`
extracts from a family of contiguous slices recovers the matching
segment of `a`'s own `o`-th block. -/
theorem slices_join_extract {V : Type} (a : Tensor V) (d : Nat)
    (hwf : a.data.length = a.shape.prod) (hd : d < a.shape.length) :
    ∀ (lens : List Nat) (s : Nat), s + lens.sum ≤ a.shape.getD d 0 →
    ∀ o, o < (a.shape.take d).prod →
    ((slices a d s lens).map (fun t =>
        (t.data.drop (o * (t.shape.getD d 0 * (a.shape.drop (d + 1)).prod))).take
          (t.shape.getD d 0 * (a.shape.drop (d + 1)).prod))).flatten =
      (((a.data.drop (o * (a.shape.getD d 0 * (a.shape.drop (d + 1)).prod))).take
          (a.shape.getD d 0 * (a.shape.drop (d + 1)).prod)).drop
            (s * (a.shape.drop (d + 1)).prod)).take
              (lens.sum * (a.shape.drop (d + 1)).prod)
  | [], s, hs, o, ho => by simp [slices]
  | l :: ls, s, hs, o, ho => by
    show ((slice_in_dim a d s l).data.drop
        (o * ((slice_in_dim a d s l).shape.getD d 0 * (a.shape.drop (d + 1)).prod))).take
          ((slice_in_dim a d s l).shape.getD d 0 * (a.shape.drop (d + 1)).prod) ++
        ((slices a d (s + l) ls).map _).flatten = _
    have hgd : (slice_in_dim a d s l).shape.getD d 0 = l := by
      show (a.shape.set d l).getD d 0 = l
      exact getD_set_self a.shape d l 0 hd
    rw [hgd]
    have hsl2 : s + l ≤ a.shape.getD d 0 := by
      simp only [List.sum_cons] at hs
      omega
    rw [slice_block_extract a d s l hwf hd hsl2 o ho]
    rw [slices_join_extract a d hwf hd ls (s + l)
      (by simp only [List.sum_cons] at hs; omega) o ho]
    rw [List.sum_cons]
    rw [show (l + ls.sum) * (a.shape.drop (d + 1)).prod =
      l * (a.shape.drop (d + 1)).prod + ls.sum * (a.shape.drop (d + 1)).prod from by ring]
    rw [List.take_add, List.drop_drop]
    rw [show s * (a.shape.drop (d + 1)).prod + l * (a.shape.drop (d + 1)).prod =
      (s + l) * (a.shape.drop (d + 1)).prod from by ring]

/-- `cat` reassembles a family of positive-size contiguous slices of
`a` along `d` into `a` itself. -/
theorem cat_slices {V : Type} (a : Tensor V) (d : Nat) (lens : List Nat)
    (hwf : a.data.length = a.shape.prod) (hd : d < a.shape.length)
    (hsum : lens.sum = a.shape.getD d 0) (hne : lens ≠ [])
    (hpos : ∀ l ∈ lens, 0 < l) :
    cat (slices a d 0 lens) (d : Int) = .ok a := by
  obtain ⟨l0, ls, rfl⟩ : ∃ l0 ls, lens = l0 :: ls := by
    cases lens with
    | nil => exact absurd rfl hne
    | cons x xs => exact ⟨x, xs, rfl⟩
  set inner := (a.shape.drop (d + 1)).prod with hinner
  set M := a.shape.getD d 0 * inner with hM
  set outer := (a.shape.take d).prod with houter
  have hdata : a.data.length = outer * M := by
    rw [hwf]; exact prod_split a.shape d hd
  -- the filter of `cat` keeps every slice
  have hkeep : ∀ p ∈ slices a d 0 (l0 :: ls),
      (!(p.shape.length == 1 && p.shape.prod == 0)) = true := by
    intro p hp
    obtain ⟨l, hl, hsh⟩ := mem_slices a d (l0 :: ls) 0 p hp
    have hlpos : 0 < l := hpos l hl
    by_cases h1 : a.shape.length = 1
    · obtain ⟨x, hx⟩ := List.length_eq_one.mp h1
      have hd0 : d = 0 := by omega
      rw [hsh, hx, hd0]
      show (!([l].length == 1 && [l].prod == 0)) = true
      simp
      omega
    · rw [hsh]
      simp [List.length_set, h1]
  have hfilter : (slices a d 0 (l0 :: ls)).filter
      (fun t => !(t.shape.length == 1 && t.shape.prod == 0)) =
      slices a d 0 (l0 :: ls) := List.filter_eq_self.mpr hkeep
  -- canonicalization against the first slice
  have hcanon : canonicalize_dim (slice_in_dim a d 0 l0).shape.length (d : Int) = .ok d := by
    show canonicalize_dim (a.shape.set d l0).length _ = _
    rw [List.length_set]
    exact canonicalize_dim_canon _ _ hd
  -- the compatibility check of `prims.cat` succeeds
  have hall : (slices a d (0 + l0) ls).all (fun t =>
      t.shape.length == (slice_in_dim a d 0 l0).shape.length &&
      t.shape.eraseIdx d == (slice_in_dim a d 0 l0).shape.eraseIdx d) = true := by
    rw [List.all_eq_true]
    intro t ht
    obtain ⟨l, _, hsh⟩ := mem_slices a d ls (0 + l0) t ht
    rw [hsh]
    show ((a.shape.set d l).length == (a.shape.set d l0).length &&
      (a.shape.set d l).eraseIdx d == (a.shape.set d l0).eraseIdx d) = true
    rw [List.length_set, List.length_set, eraseIdx_set, eraseIdx_set]
    simp
  have htotal : ((slices a d 0 (l0 :: ls)).map (fun t => t.shape.getD d 0)).sum =
      a.shape.getD d 0 := by
    rw [map_getD_slices a d hd]
    exact hsum
  show cat (slice_in_dim a d 0 l0 :: slices a d (0 + l0) ls) (d : Int) = .ok a
  simp only [cat]
  rw [hcanon]
  show (match (slice_in_dim a d 0 l0 :: slices a d (0 + l0) ls).filter
      (fun t => !(t.shape.length == 1 && t.shape.prod == 0)) with
    | [] => Except.ok (⟨[0], []⟩ : Tensor V)
    | u0 :: us => prims_cat (u0 :: us) d) = Except.ok a
  rw [show (slice_in_dim a d 0 l0 :: slices a d (0 + l0) ls).filter
      (fun t => !(t.shape.length == 1 && t.shape.prod == 0)) =
      slice_in_dim a d 0 l0 :: slices a d (0 + l0) ls from hfilter]
  show prims_cat (slice_in_dim a d 0 l0 :: slices a d (0 + l0) ls) d = Except.ok a
  simp only [prims_cat]
  rw [if_pos hall]
  have hshape : (slice_in_dim a d 0 l0).shape.set d
      (((slice_in_dim a d 0 l0 :: slices a d (0 + l0) ls).map
        (fun t => t.shape.getD d 0)).sum) = a.shape := by
    rw [show ((slice_in_dim a d 0 l0 :: slices a d (0 + l0) ls).map
        (fun t => t.shape.getD d 0)).sum = a.shape.getD d 0 from htotal]
    show (a.shape.set d l0).set d (a.shape.getD d 0) = a.shape
    rw [List.set_set]
    exact set_getD_self a.shape d 0 hd
  have hinner2 : ((slice_in_dim a d 0 l0).shape.drop (d + 1)).prod = inner := by
    show ((a.shape.set d l0).drop (d + 1)).prod = inner
    rw [drop_succ_set_self]
  have houter2 : ((slice_in_dim a d 0 l0).shape.take d).prod = outer := by
    show ((a.shape.set d l0).take d).prod = outer
    rw [take_set_self]
  rw [hshape, hinner2, houter2]
  have hdat : jb outer (fun o =>
      ((slice_in_dim a d 0 l0 :: slices a d (0 + l0) ls).map (fun t =>
        (t.data.drop (o * (t.shape.getD d 0 * inner))).take
          (t.shape.getD d 0 * inner))).flatten) = a.data := by
    have hcong : ∀ o, o < outer →
        ((slice_in_dim a d 0 l0 :: slices a d (0 + l0) ls).map (fun t =>
          (t.data.drop (o * (t.shape.getD d 0 * inner))).take
            (t.shape.getD d 0 * inner))).flatten =
        (a.data.drop (o * M)).take M := by
      intro o ho
      have := slices_join_extract a d hwf hd (l0 :: ls) 0 (by omega) o ho
      rw [show slices a d 0 (l0 :: ls) =
        slice_in_dim a d 0 l0 :: slices a d (0 + l0) ls from rfl] at this
      rw [this, Nat.zero_mul, List.drop_zero, hsum]
      have hlen : ((a.data.drop (o * M)).take M).length = M := by
        have h1 : o * M + M ≤ outer * M := by
          have := Nat.mul_le_mul_right M (show o + 1 ≤ outer by omega)
          calc o * M + M = (o + 1) * M := by ring
          _ ≤ _ := this
        simp [hdata]
        omega
      exact List.take_of_length_le (by rw [hlen])
    rw [jb_congr outer _ _ hcong]
    exact jb_blocks_self outer M a.data hdata
  rw [hdat]

/-- C7: for every tensor with a positive extent along a valid dimension
and every `chunks ≥ 1`, `chunk` succeeds and returns at most `chunks`
(and at least one) pieces; every piece except the last has size
`ceil(shape[dim] / chunks)` along `dim`, the last piece is no larger
(and nonempty); and `cat` applied to the pieces along `dim` returns a
tensor equal to `a`. -/
theorem chunk_cat_roundtrip {V : Type} (a : Tensor V) (dim chunks : Nat)
    (hwf : a.data.length = a.shape.prod)
    (hdim : dim < a.shape.length)
    (hpos : 0 < a.shape.getD dim 0)
    (hchunks : 1 ≤ chunks) :
    ∃ pieces, chunk a chunks (dim : Int) = .ok pieces ∧
      pieces.length ≤ chunks ∧
      0 < pieces.length ∧
      (∀ i p, i + 1 < pieces.length → pieces[i]? = some p →
        p.shape = a.shape.set dim ((a.shape.getD dim 0 + chunks - 1) / chunks)) ∧
      (∃ p sz, pieces.getLast? = some p ∧ 0 < sz ∧
        sz ≤ (a.shape.getD dim 0 + chunks - 1) / chunks ∧
        p.shape = a.shape.set dim sz) ∧
      cat pieces (dim : Int) = .ok a := by
  have hcs1 : 1 ≤ (a.shape.getD dim 0 + chunks - 1) / chunks :=
    (Nat.le_div_iff_mul_le (by omega)).mpr (by omega)
  have hcsL : (a.shape.getD dim 0 + chunks - 1) / chunks ≤ a.shape.getD dim 0 := by
    have h1 : a.shape.getD dim 0 ≤ a.shape.getD dim 0 * chunks :=
      Nat.le_mul_of_pos_right _ (by omega)
    have h2 : (a.shape.getD dim 0 + chunks - 1) / chunks < a.shape.getD dim 0 + 1 := by
      rw [Nat.div_lt_iff_lt_mul (by omega)]
      have h3 : (a.shape.getD dim 0 + 1) * chunks = a.shape.getD dim 0 * chunks + chunks := by
        ring
      omega
    omega
  have hdm := Nat.div_add_mod (a.shape.getD dim 0) ((a.shape.getD dim 0 + chunks - 1) / chunks)
  have hTlt : a.shape.getD dim 0 % ((a.shape.getD dim 0 + chunks - 1) / chunks) <
      (a.shape.getD dim 0 + chunks - 1) / chunks :=
    Nat.mod_lt _ (by omega)
  have hF1 : 1 ≤ a.shape.getD dim 0 / ((a.shape.getD dim 0 + chunks - 1) / chunks) :=
    (Nat.le_div_iff_mul_le (by omega)).mpr (by omega)
  have hLle : a.shape.getD dim 0 ≤ chunks * ((a.shape.getD dim 0 + chunks - 1) / chunks) := by
    have h3 := Nat.div_add_mod (a.shape.getD dim 0 + chunks - 1) chunks
    have h4 : (a.shape.getD dim 0 + chunks - 1) % chunks < chunks := Nat.mod_lt _ (by omega)
    omega
  have hFle : a.shape.getD dim 0 / ((a.shape.getD dim 0 + chunks - 1) / chunks) ≤ chunks := by
    apply Nat.le_of_mul_le_mul_left (c := (a.shape.getD dim 0 + chunks - 1) / chunks) _
      (by omega)
    calc ((a.shape.getD dim 0 + chunks - 1) / chunks) *
        (a.shape.getD dim 0 / ((a.shape.getD dim 0 + chunks - 1) / chunks)) ≤
        a.shape.getD dim 0 := by omega
    _ ≤ chunks * ((a.shape.getD dim 0 + chunks - 1) / chunks) := hLle
    _ = ((a.shape.getD dim 0 + chunks - 1) / chunks) * chunks := by ring
  have hFlt : a.shape.getD dim 0 % ((a.shape.getD dim 0 + chunks - 1) / chunks) ≠ 0 →
      a.shape.getD dim 0 / ((a.shape.getD dim 0 + chunks - 1) / chunks) < chunks := by
    intro hT
    apply Nat.lt_of_mul_lt_mul_left (a := (a.shape.getD dim 0 + chunks - 1) / chunks)
    calc ((a.shape.getD dim 0 + chunks - 1) / chunks) *
        (a.shape.getD dim 0 / ((a.shape.getD dim 0 + chunks - 1) / chunks)) <
        a.shape.getD dim 0 := by omega
    _ ≤ chunks * ((a.shape.getD dim 0 + chunks - 1) / chunks) := hLle
    _ = ((a.shape.getD dim 0 + chunks - 1) / chunks) * chunks := by ring
  have hchunk : chunk a chunks (dim : Int) = .ok
      (if a.shape.getD dim 0 % ((a.shape.getD dim 0 + chunks - 1) / chunks) ≠ 0 then
        ((List.range (a.shape.getD dim 0 / ((a.shape.getD dim 0 + chunks - 1) / chunks))).map
          (fun i => slice_in_dim a dim (i * ((a.shape.getD dim 0 + chunks - 1) / chunks))
            ((a.shape.getD dim 0 + chunks - 1) / chunks))) ++
          [slice_in_dim a dim
            ((a.shape.getD dim 0 / ((a.shape.getD dim 0 + chunks - 1) / chunks)) *
              ((a.shape.getD dim 0 + chunks - 1) / chunks))
            (a.shape.getD dim 0 % ((a.shape.getD dim 0 + chunks - 1) / chunks))]
      else
        ((List.range (a.shape.getD dim 0 / ((a.shape.getD dim 0 + chunks - 1) / chunks))).map
          (fun i => slice_in_dim a dim (i * ((a.shape.getD dim 0 + chunks - 1) / chunks))
            ((a.shape.getD dim 0 + chunks - 1) / chunks)))) := by
    simp only [chunk]
    rw [if_neg (show ¬chunks = 0 by omega), canonicalize_dim_canon _ _ hdim]
    show (if (a.shape.getD dim 0 + chunks - 1) / chunks = 0 then
        Except.error RErr.zeroDivisionError
      else Except.ok _) = _
    rw [if_neg (by omega)]
  by_cases hT : a.shape.getD dim 0 % ((a.shape.getD dim 0 + chunks - 1) / chunks) = 0
  · rw [if_neg (show ¬(a.shape.getD dim 0 %
        ((a.shape.getD dim 0 + chunks - 1) / chunks) ≠ 0) by omega)] at hchunk
    refine ⟨_, hchunk, ?_, ?_, ?_, ?_, ?_⟩
    · simpa using hFle
    · simpa using hF1
    · intro i p hi hget
      simp only [List.length_map, List.length_range] at hi
      rw [List.getElem?_map, List.getElem?_range (show i <
        a.shape.getD dim 0 / ((a.shape.getD dim 0 + chunks - 1) / chunks) by omega)] at hget
      have hp := Option.some.inj hget
      rw [← hp]
      rfl
    · refine ⟨slice_in_dim a dim
        ((a.shape.getD dim 0 / ((a.shape.getD dim 0 + chunks - 1) / chunks) - 1) *
          ((a.shape.getD dim 0 + chunks - 1) / chunks))
        ((a.shape.getD dim 0 + chunks - 1) / chunks),
        (a.shape.getD dim 0 + chunks - 1) / chunks, ?_, by omega, le_refl _, rfl⟩
      rw [List.getLast?_eq_getElem?]
      simp only [List.length_map, List.length_range]
      rw [List.getElem?_map, List.getElem?_range (by omega)]
      rfl
    · have h5 := slices_replicate a dim ((a.shape.getD dim 0 + chunks - 1) / chunks)
        (a.shape.getD dim 0 / ((a.shape.getD dim 0 + chunks - 1) / chunks)) 0 []
      rw [List.append_nil] at h5
      rw [show slices a dim
        (0 + (a.shape.getD dim 0 / ((a.shape.getD dim 0 + chunks - 1) / chunks)) *
          ((a.shape.getD dim 0 + chunks - 1) / chunks)) [] = [] from rfl,
        List.append_nil] at h5
      have h6 : (List.range
          (a.shape.getD dim 0 / ((a.shape.getD dim 0 + chunks - 1) / chunks))).map
          (fun i => slice_in_dim a dim (0 + i * ((a.shape.getD dim 0 + chunks - 1) / chunks))
            ((a.shape.getD dim 0 + chunks - 1) / chunks)) =
          (List.range
            (a.shape.getD dim 0 / ((a.shape.getD dim 0 + chunks - 1) / chunks))).map
          (fun i => slice_in_dim a dim (i * ((a.shape.getD dim 0 + chunks - 1) / chunks))
            ((a.shape.getD dim 0 + chunks - 1) / chunks)) := by
        apply List.map_congr_left
        intro i _
        rw [Nat.zero_add]
      rw [h6] at h5
      rw [← h5]
      apply cat_slices a dim _ hwf hdim _ _ _
      · rw [List.sum_const_nat, Nat.mul_comm]
        have h9 := hdm
        rw [hT] at h9
        simpa using h9
      · apply List.ne_nil_of_length_pos
        rw [List.length_replicate]
        omega
      · intro l hl
        rw [List.eq_of_mem_replicate hl]
        omega
  · rw [if_pos hT] at hchunk
    refine ⟨_, hchunk, ?_, ?_, ?_, ?_, ?_⟩
    · have := hFlt hT
      simp only [List.length_append, List.length_map, List.length_range, List.length_cons,
        List.length_nil]
      omega
    · simp
    · intro i p hi hget
      simp only [List.length_append, List.length_map, List.length_range, List.length_cons,
        List.length_nil] at hi
      rw [List.getElem?_append_left (by
        simp only [List.length_map, List.length_range]; omega)] at hget
      rw [List.getElem?_map, List.getElem?_range (show i <
        a.shape.getD dim 0 / ((a.shape.getD dim 0 + chunks - 1) / chunks) by omega)] at hget
      have hp := Option.some.inj hget
      rw [← hp]
      rfl
    · refine ⟨slice_in_dim a dim
        ((a.shape.getD dim 0 / ((a.shape.getD dim 0 + chunks - 1) / chunks)) *
          ((a.shape.getD dim 0 + chunks - 1) / chunks))
        (a.shape.getD dim 0 % ((a.shape.getD dim 0 + chunks - 1) / chunks)),
        a.shape.getD dim 0 % ((a.shape.getD dim 0 + chunks - 1) / chunks),
        ?_, by omega, by omega, rfl⟩
      exact List.getLast?_concat _
    · have h5 := slices_replicate a dim ((a.shape.getD dim 0 + chunks - 1) / chunks)
        (a.shape.getD dim 0 / ((a.shape.getD dim 0 + chunks - 1) / chunks)) 0
        [a.shape.getD dim 0 % ((a.shape.getD dim 0 + chunks - 1) / chunks)]
      rw [show slices a dim
        (0 + (a.shape.getD dim 0 / ((a.shape.getD dim 0 + chunks - 1) / chunks)) *
          ((a.shape.getD dim 0 + chunks - 1) / chunks))
        [a.shape.getD dim 0 % ((a.shape.getD dim 0 + chunks - 1) / chunks)] =
        [slice_in_dim a dim
          (0 + (a.shape.getD dim 0 / ((a.shape.getD dim 0 + chunks - 1) / chunks)) *
            ((a.shape.getD dim 0 + chunks - 1) / chunks))
          (a.shape.getD dim 0 % ((a.shape.getD dim 0 + chunks - 1) / chunks))] from rfl,
        Nat.zero_add] at h5
      have h6 : (List.range
          (a.shape.getD dim 0 / ((a.shape.getD dim 0 + chunks - 1) / chunks))).map
          (fun i => slice_in_dim a dim (0 + i * ((a.shape.getD dim 0 + chunks - 1) / chunks))
            ((a.shape.getD dim 0 + chunks - 1) / chunks)) =
          (List.range
            (a.shape.getD dim 0 / ((a.shape.getD dim 0 + chunks - 1) / chunks))).map
          (fun i => slice_in_dim a dim (i * ((a.shape.getD dim 0 + chunks - 1) / chunks))
            ((a.shape.getD dim 0 + chunks - 1) / chunks)) := by
        apply List.map_congr_left
        intro i _
        rw [Nat.zero_add]
      rw [h6] at h5
      rw [← h5]
      apply cat_slices a dim _ hwf hdim _ _ _
      · rw [List.sum_append, List.sum_const_nat, Nat.mul_comm]
        simpa using hdm
      · simp
      · intro l hl
        rcases List.mem_append.mp hl with hl | hl
        · rw [List.eq_of_mem_replicate hl]
          omega
        · rw [show l = a.shape.getD dim 0 %
            ((a.shape.getD dim 0 + chunks - 1) / chunks) by simpa using hl]
          omega

/-- C7 witness: chunking a five-element vector into two chunks gives at
most two pieces, and `cat` reassembles them into the original tensor. -/
theorem chunk_cat_roundtrip_witness :
    (0 : Nat) < (Tensor.mk [5] [10, 11, 12, 13, 14] : Tensor Nat).shape.getD 0 0 ∧
    ∃ pieces, chunk (Tensor.mk [5] [10, 11, 12, 13, 14] : Tensor Nat) 2 (0 : Int) =
        .ok pieces ∧
      pieces.length ≤ 2 ∧
      cat pieces (0 : Int) = .ok (Tensor.mk [5] [10, 11, 12, 13, 14]) := by
  have h := chunk_cat_roundtrip (Tensor.mk [5] [10, 11, 12, 13, 14] : Tensor Nat) 0 2
    rfl (by decide) (by decide) (by decide)
  obtain ⟨pieces, h1, h2, _, _, _, h6⟩ := h
  exact ⟨by decide, pieces, h1, h2, h6⟩

end Refs

namespace Rebase

/-!
Embedding of `.github/scripts/tryrebase.py`.

The script's effects on the outside world (GitHub comments posted via
`gh_post_comment`, git commands run through `GitRepo`, and `ghstack`
invocations — none of these helpers are part of this repository) are
modelled as an emitted trace of `Action`s; the values the calls return
(push output, ghstack exit status and stdout) are supplied by an `Env`
oracle.  Failures raised inside the `try` block of `main` are modelled
as an `Option String` carrying the exception message.
-/

/-- One externally visible effect of the script. -/
inductive Action where
  | comment (org proj : String) (prNum : Nat) (msg : String) (dryRun : Bool)
  | fetch (src dst : String)
  | gitRebase (onto branch : String)
  | push (dryRun : Bool) (remoteUrl refspec : String)
  | installGhstack
  | writeGhstackRc
  | runGhstack
deriving DecidableEq

/-- Git / repository operations, as opposed to posted comments. -/
def Action.isGitOp : Action → Bool
  | .comment _ _ _ _ _ => false
  | _ => true

/-- The facts `main` reads from the `GitHubPR` / `GitRepo` objects. -/
structure PR where
  org : String
  project : String
  prNum : Nat
  isClosed : Bool
  isGhstackPr : Bool
  headRef : String
  defaultBranch : String
  headRepoNameWithOwner : String
deriving DecidableEq

/-- Modelled from the spec: responses of the outside world (the output
of `git push`, whether `ghstack` is installed, its exit status and
stdout lines, and the optional `GH_RUN_URL` environment variable). -/
structure Env where
  pushOutput : String
  ghstackInstalled : Bool
  ghstackReturncodeZero : Bool
  ghstackStdout : List String
  runUrl : Option String
deriving DecidableEq

/-- `needle in haystack` on Python strings. -/
def strContains (haystack needle : String) : Bool :=
  (haystack.splitOn needle).length != 1

/-- `re.sub(r"/head$", "/orig", s)`. -/
def subHeadToOrig (s : String) : String :=
  if "/head".data.isSuffixOf s.data then
    String.mk (s.data.take (s.data.length - 5)) ++ "/orig"
  else s

/-- `rebase_onto`: fetch the PR branch, rebase it onto the target
branch, force-push, and post one comment describing the outcome. -/
def rebase_onto (pr : PR) (env : Env) (dryRun stable : Bool) : List Action :=
  let branch := "pull/" ++ toString pr.prNum ++ "/head"
  let ontoBranch := if stable then "refs/remotes/origin/viable/strict" else pr.defaultBranch
  let remoteUrl := "https://github.com/" ++ pr.headRepoNameWithOwner ++ ".git"
  let refspec := branch ++ ":" ++ pr.headRef
  [Action.fetch branch branch, Action.gitRebase ontoBranch branch,
    Action.push dryRun remoteUrl refspec] ++
  (if strContains env.pushOutput "Everything up-to-date" then
    [Action.comment pr.org pr.project pr.prNum
      ("Tried to rebase and push PR #" ++ toString pr.prNum ++
        ", but it was already up to date") dryRun]
  else
    [Action.comment pr.org pr.project pr.prNum
      ("Successfully rebased `" ++ pr.headRef ++ "` onto `" ++ ontoBranch ++
        "`, please pull locally before adding more changes (for example, via `git checkout " ++
        pr.headRef ++ " && git pull --rebase`)") dryRun])

/-- One stdout line of a successful `ghstack` run: lines containing
`Updated` name a PR of the stack and trigger one comment each; a line
whose final `/`-component is not a number makes `int()` raise. -/
def ghstackLineActions (pr : PR) (ontoBranch origRef : String) (dryRun : Bool)
    (line : String) : Except String (List Action) :=
  if strContains line "Updated" then
    match (line.splitOn "/").getLast? with
    | none => .error "int parse"
    | some last =>
      match last.toNat? with
      | none => .error ("invalid literal for int: " ++ last)
      | some n =>
        if n ≠ pr.prNum then
          .ok [Action.comment pr.org pr.project n
            ("Rebased `" ++ origRef ++ "` onto `" ++ ontoBranch ++ "` because #" ++
              toString pr.prNum ++
              " was rebased, please pull locally before adding more changes " ++
              "(for example, via `git checkout " ++ origRef ++ " && git pull --rebase`)")
            dryRun]
        else
          .ok [Action.comment pr.org pr.project n
            ("Successfully rebased `" ++ origRef ++ "` onto `" ++ ontoBranch ++
              "`, please pull locally before adding more changes (for example, via " ++
              "`git checkout " ++ origRef ++ " && git pull --rebase`)") dryRun]
  else .ok []

def ghstackLinesLoop (pr : PR) (ontoBranch origRef : String) (dryRun : Bool) :
    List String → Except String (List Action)
  | [] => .ok []
  | line :: rest =>
    match ghstackLineActions pr ontoBranch origRef dryRun line with
    | .error e => .error e
    | .ok acts =>
      match ghstackLinesLoop pr ontoBranch origRef dryRun rest with
      | .error e => .error e
      | .ok more => .ok (acts ++ more)

/-- `rebase_ghstack_onto`: install `ghstack` if missing, fetch and
rebase the `/orig` ref, write `.ghstackrc`, and (when not a dry run)
run `ghstack`, raising on a nonzero exit status and otherwise posting
one comment per updated PR plus an up-to-date comment when the PR was
skipped. -/
def rebase_ghstack_onto (pr : PR) (env : Env) (dryRun stable : Bool) :
    List Action × Option String :=
  let origRef := subHeadToOrig pr.headRef
  let ontoBranch := if stable then "refs/remotes/origin/viable/strict" else pr.defaultBranch
  let pre := (if !env.ghstackInstalled then [Action.installGhstack] else []) ++
    [Action.fetch origRef origRef, Action.gitRebase ontoBranch origRef,
      Action.writeGhstackRc]
  if dryRun then
    -- the source only prints "Don't know how to dry-run ghstack"
    (pre, none)
  else
    let pre := pre ++ [Action.runGhstack]
    if !env.ghstackReturncodeZero then
      (pre, some ("\n```" ++ String.intercalate "\n" env.ghstackStdout ++ "```"))
    else
      match ghstackLinesLoop pr ontoBranch origRef dryRun env.ghstackStdout with
      | .error e => (pre, some e)
      | .ok comments =>
        let skipped := "Skipped https://github.com/" ++ pr.org ++ "/" ++ pr.project ++
          "/pull/" ++ toString pr.prNum
        if strContains (String.intercalate "\n" env.ghstackStdout) skipped then
          (pre ++ comments ++ [Action.comment pr.org pr.project pr.prNum
            ("Tried to rebase and push PR #" ++ toString pr.prNum ++
              ", but it was already up to date") dryRun], none)
        else (pre ++ comments, none)

/-- `main`: a closed PR gets exactly one comment and an early return;
otherwise the ghstack or plain rebase flow runs inside `try`, and an
exception produces a "Rebase failed due to ..." comment. -/
def main (pr : PR) (env : Env) (dryRun stable : Bool) : List Action :=
  if pr.isClosed then
    [Action.comment pr.org pr.project pr.prNum
      ("PR #" ++ toString pr.prNum ++ " is closed, won't rebase") dryRun]
  else
    let result :=
      if pr.isGhstackPr then rebase_ghstack_onto pr env dryRun stable
      else (rebase_onto pr env dryRun stable, none)
    match result.2 with
    | none => result.1
    | some msg =>
      let msg2 := match env.runUrl with
        | some url => msg ++ "\nRaised by " ++ url
        | none => msg
      result.1 ++ [Action.comment pr.org pr.project pr.prNum
        ("Rebase failed due to " ++ msg2) dryRun]

/-- C8: for every closed PR, `main` posts exactly one comment — saying
the PR is closed and won't be rebased — and performs no git, push, or
ghstack operation at all. -/
theorem rebase_closed_pr (pr : PR) (env : Env) (dryRun stable : Bool)
    (h : pr.isClosed = true) :
    main pr env dryRun stable =
      [Action.comment pr.org pr.project pr.prNum
        ("PR #" ++ toString pr.prNum ++ " is closed, won't rebase") dryRun] ∧
    (main pr env dryRun stable).filter (fun a => a.isGitOp) = [] ∧
    ((main pr env dryRun stable).filter (fun a => !a.isGitOp)).length = 1 := by
  refine ⟨?_, ?_, ?_⟩ <;> simp [main, h, Action.isGitOp, List.filter]

/-- C8 witness: the closed-PR early return at a concrete PR. -/
theorem rebase_closed_pr_witness :
    main ⟨"pytorch", "pytorch", 42, true, false, "pull/42/head", "main", "u/pytorch"⟩
        ⟨"", true, true, [], none⟩ false false =
      [Action.comment "pytorch" "pytorch" 42 "PR #42 is closed, won't rebase" false] ∧
    (main ⟨"pytorch", "pytorch", 42, true, false, "pull/42/head", "main", "u/pytorch"⟩
        ⟨"", true, true, [], none⟩ false false).filter (fun a => a.isGitOp) = [] := by
  have h := rebase_closed_pr
    ⟨"pytorch", "pytorch", 42, true, false, "pull/42/head", "main", "u/pytorch"⟩
    ⟨"", true, true, [], none⟩ false false rfl
  exact ⟨by rw [h.1]; rfl, h.2.1⟩

end Rebase

namespace Cse

/-!
Embedding of `cse.py`: the experimental common-subexpression-elimination
pass over `torch.fx` graphs.

An FX graph is a topologically ordered list of nodes; a node argument is
a reference to an earlier node, a constant, or an (immutable) list of
arguments.  Python `Node` objects compare and hash by identity, and
`env` is keyed on them; identity is modelled by a numeric id.  A
well-formed graph numbers its nodes `0, 1, 2, ...` by position, and the
new graph built by `modify` numbers its nodes `base, base + 1, ...`
where `base` is the input size, so ids never collide across graphs.

`fx_hash` is modelled as a collision-free hash: the hash value of a
call node is the tuple of its target, its env-mapped top-level args and
its kwarg keys (`kwargs = list(n.kwargs)` yields only the keys).
Python guarantees that equal values hash equally, which this model
satisfies; spurious collisions of unequal values (possible in Python,
astronomically rare and dependent on the per-process string hash seed)
are not modelled.  The `check_same` guard, which decides every merge,
is modelled exactly.

FX graph evaluation (`GraphModule` forward semantics, not part of this
repository) is modelled from the spec: a placeholder consumes the next
input, `get_attr` yields the value of an attribute as a function of its
target, a call node applies an uninterpreted function of its op, its
target, its evaluated args and kwargs, and an output node records the
value of its arguments; all of it relative to an arbitrary
interpretation `Interp`.
-/

inductive Op where
  | placeholder
  | output
  | get_attr
  | call_function
  | call_module
  | call_method
deriving DecidableEq

/-- The copy condition of `modify`:
`n.op == 'placeholder' or n.op == 'output' or n.op == 'get_attr'`. -/
def nonCall : Op → Bool
  | .placeholder => true
  | .output => true
  | .get_attr => true
  | _ => false

inductive Arg where
  | node (i : Nat)
  | const (c : Int)
  | list (xs : List Arg)

mutual

def Arg.beq : Arg → Arg → Bool
  | .node i, .node j => i == j
  | .const a, .const b => a == b
  | .list xs, .list ys => Arg.listBeq xs ys
  | _, _ => false

def Arg.listBeq : List Arg → List Arg → Bool
  | [], [] => true
  | x :: xs, y :: ys => Arg.beq x y && Arg.listBeq xs ys
  | _, _ => false

end

mutual

theorem Arg.beq_refl : ∀ a : Arg, Arg.beq a a = true
  | .node i => by simp [Arg.beq]
  | .const c => by simp [Arg.beq]
  | .list xs => by simp [Arg.beq, Arg.listBeq_refl xs]

theorem Arg.listBeq_refl : ∀ xs : List Arg, Arg.listBeq xs xs = true
  | [] => rfl
  | x :: xs => by simp [Arg.listBeq, Arg.beq_refl x, Arg.listBeq_refl xs]

end

mutual

theorem Arg.beq_eq : ∀ a b : Arg, Arg.beq a b = true → a = b
  | .node i, .node j, h => by simpa [Arg.beq] using h
  | .const a, .const b, h => by simpa [Arg.beq] using h
  | .list xs, .list ys, h => by
    rw [Arg.listBeq_eq xs ys (by simpa [Arg.beq] using h)]
  | .node _, .const _, h => by simp [Arg.beq] at h
  | .node _, .list _, h => by simp [Arg.beq] at h
  | .const _, .node _, h => by simp [Arg.beq] at h
  | .const _, .list _, h => by simp [Arg.beq] at h
  | .list _, .node _, h => by simp [Arg.beq] at h
  | .list _, .const _, h => by simp [Arg.beq] at h

theorem Arg.listBeq_eq : ∀ xs ys : List Arg, Arg.listBeq xs ys = true → xs = ys
  | [], [], _ => rfl
  | x :: xs, y :: ys, h => by
    have h2 : Arg.beq x y = true ∧ Arg.listBeq xs ys = true := by
      simpa [Arg.listBeq, Bool.and_eq_true] using h
    rw [Arg.beq_eq x y h2.1, Arg.listBeq_eq xs ys h2.2]
  | [], _ :: _, h => by simp [Arg.listBeq] at h
  | _ :: _, [], h => by simp [Arg.listBeq] at h

end

instance : DecidableEq Arg := fun a b =>
  if h : Arg.beq a b = true then isTrue (Arg.beq_eq a b h)
  else isFalse (fun he => h (he ▸ Arg.beq_refl a))

structure Node where
  id : Nat
  op : Op
  target : String
  args : List Arg
  kwargs : List (String × Arg)
deriving DecidableEq

/-- Dictionary keyed by node identity (`env` in the source). -/
abbrev Env := List (Nat × Node)

def alookup {β : Type} : List (Nat × β) → Nat → Option β
  | [], _ => none
  | p :: rest, k => if p.1 = k then some p.2 else alookup rest k

inductive CErr where
  | keyError
  | typeError
deriving DecidableEq

/-- The body of the index loop of `check_args`, one `(new, old)`
argument pair at a time.  `new_args[i] != old_args[i]` is Python
equality (identity for nodes, element-wise for lists); `old_args[i] in
env` is a dict lookup keyed on `Node` objects, which returns `False`
for a non-`Node` hashable key and raises `TypeError` for a list key;
`new_args[i] != env[old_args[i]]` compares node identities. -/
def check_args_loop (env : Env) : List (Arg × Arg) → Except CErr Bool
  | [] => .ok true
  | (na, oa) :: rest =>
    if na = oa then check_args_loop env rest
    else
      match na with
      | .node j =>
        match oa with
        | .node i =>
          match alookup env i with
          | none => .ok false
          | some m => if j = m.id then check_args_loop env rest else .ok false
        | .const _ => .ok false
        | .list _ => .error .typeError
      | _ => .ok false

/-- `check_args` on (top-level) argument tuples. -/
def check_args (env : Env) (new old : List Arg) : Except CErr Bool :=
  if new.length ≠ old.length then .ok false
  else check_args_loop env (new.zip old)

/-- `check_args` applied to the kwargs dicts: `len` works on dicts, but
the loop then indexes the dicts with the integer positions `0..len-1`,
which are never keys of a (string-keyed) keyword dict, so any nonzero
length raises `KeyError` on `new_args[0]`. -/
def check_kwargs (new old : List (String × Arg)) : Except CErr Bool :=
  if new.length ≠ old.length then .ok false
  else if new.length = 0 then .ok true
  else .error .keyError

/-- `check_same(new_node, old_node, env)`. -/
def check_same (env : Env) (newNode oldNode : Node) : Except CErr Bool :=
  if newNode.target ≠ oldNode.target then .ok false
  else
    match check_args env newNode.args oldNode.args with
    | .error e => .error e
    | .ok b =>
      if !b then .ok false
      else
        match check_kwargs newNode.kwargs oldNode.kwargs with
        | .error e => .error e
        | .ok b2 => if !b2 then .ok false else .ok true

/-- The arg-mapping loop in `modify`:
`if isinstance(args[i], Node) and args[i] in env: args[i] = env[args[i]]`
(top-level only; nested lists are left untouched). -/
def mapTopArg (env : Env) (a : Arg) : Arg :=
  match a with
  | .node i =>
    match alookup env i with
    | some m => .node m.id
    | none => a
  | _ => a

mutual

/-- `node_copy`'s recursive `map_arg` with transform `lambda x: env[x]`,
which raises `KeyError` on a node not in `env`. -/
def mapArgRec (env : Env) : Arg → Except CErr Arg
  | .node i =>
    match alookup env i with
    | some m => .ok (.node m.id)
    | none => .error .keyError
  | .const c => .ok (.const c)
  | .list xs =>
    match mapArgsRec env xs with
    | .error e => .error e
    | .ok ys => .ok (.list ys)

def mapArgsRec (env : Env) : List Arg → Except CErr (List Arg)
  | [] => .ok []
  | x :: xs =>
    match mapArgRec env x with
    | .error e => .error e
    | .ok y =>
      match mapArgsRec env xs with
      | .error e => .error e
      | .ok ys => .ok (y :: ys)

end

def mapKwargsRec (env : Env) : List (String × Arg) → Except CErr (List (String × Arg))
  | [] => .ok []
  | (k, v) :: rest =>
    match mapArgRec env v with
    | .error e => .error e
    | .ok w =>
      match mapKwargsRec env rest with
      | .error e => .error e
      | .ok ws => .ok ((k, w) :: ws)

/-- The (collision-free model of the) hash key
`(n.target, fx_hash([args, kwargs]))` computed by `modify`: the target,
the env-mapped top-level args, and the kwarg keys. -/
abbrev HashVal := String × List Arg × List String

def hashOf (env : Env) (n : Node) : HashVal :=
  (n.target, n.args.map (mapTopArg env), n.kwargs.map Prod.fst)

def hlookup : List (HashVal × Node) → HashVal → Option Node
  | [], _ => none
  | p :: rest, h => if p.1 = h then some p.2 else hlookup rest h

/-- The loop state of `modify`: the nodes of `new_graph` in order, the
`env` and `hash_env` dicts, and the id base for fresh new-graph nodes. -/
structure CseState where
  base : Nat
  newG : List Node
  env : Env
  henv : List (HashVal × Node)
deriving DecidableEq

/-- `new_graph.node_copy(n, lambda x: env[x])`: a fresh node with the
same op and target and recursively env-mapped args and kwargs. -/
def copyNode (st : CseState) (n : Node) : Except CErr Node :=
  match mapArgsRec st.env n.args with
  | .error e => .error e
  | .ok args2 =>
    match mapKwargsRec st.env n.kwargs with
    | .error e => .error e
    | .ok kw2 => .ok ⟨st.base + st.newG.length, n.op, n.target, args2, kw2⟩

/-- The copy path of the call branch: copy the node, record it in
`env`, and store it under its hash value (overwriting a previous holder
of the same hash, as Python dict assignment does). -/
def copyCall (st : CseState) (n : Node) (hv : HashVal) : Except CErr CseState :=
  match copyNode st n with
  | .error e => .error e
  | .ok m => .ok { st with
      newG := st.newG ++ [m]
      env := (n.id, m) :: st.env
      henv := (hv, m) :: st.henv }

/-- One iteration of the node loop of `modify`. -/
def step (st : CseState) (n : Node) : Except CErr CseState :=
  if nonCall n.op then
    match copyNode st n with
    | .error e => .error e
    | .ok m => .ok { st with newG := st.newG ++ [m], env := (n.id, m) :: st.env }
  else
    match hlookup st.henv (hashOf st.env n) with
    | some m =>
      match check_same st.env m n with
      | .error e => .error e
      | .ok true => .ok { st with env := (n.id, m) :: st.env }
      | .ok false => copyCall st n (hashOf st.env n)
    | none => copyCall st n (hashOf st.env n)

def modifyAux : CseState → List Node → Except CErr CseState
  | st, [] => .ok st
  | st, n :: rest =>
    match step st n with
    | .error e => .error e
    | .ok st2 => modifyAux st2 rest

def initState (g : List Node) : CseState := ⟨g.length, [], [], []⟩

def modifyFull (g : List Node) : Except CErr CseState :=
  modifyAux (initState g) g

/-- `modify(fx_g)`: the node list of the returned graph. -/
def modify (g : List Node) : Except CErr (List Node) :=
  match modifyFull g with
  | .error e => .error e
  | .ok st => .ok st.newG

mutual

/-- All node references of an argument lie in `[lo, hi)`. -/
def argRefsIn (lo hi : Nat) : Arg → Bool
  | .node i => decide (lo ≤ i) && decide (i < hi)
  | .const _ => true
  | .list xs => argsRefsIn lo hi xs

def argsRefsIn (lo hi : Nat) : List Arg → Bool
  | [] => true
  | x :: xs => argRefsIn lo hi x && argsRefsIn lo hi xs

end

def kwargsRefsIn (lo hi : Nat) (kws : List (String × Arg)) : Bool :=
  kws.all (fun p => argRefsIn lo hi p.2)

/-- Well-formedness of the node in position `k`: its id is `k` and all
its node references point to earlier nodes. -/
def wfNode (k : Nat) (n : Node) : Bool :=
  decide (n.id = k) && argsRefsIn 0 k n.args && kwargsRefsIn 0 k n.kwargs

def wfAux : Nat → List Node → Bool
  | _, [] => true
  | k, n :: rest => wfNode k n && wfAux (k + 1) rest

/-- A well-formed FX graph: nodes are numbered by position and in
topological order. -/
def wfGraph (g : List Node) : Bool := wfAux 0 g

/-- Any two call nodes sharing a target have the same op. -/
def stso (g : List Node) : Bool :=
  g.all (fun n => g.all (fun m =>
    if nonCall n.op || nonCall m.op then true
    else if n.target = m.target then decide (n.op = m.op) else true))

/-- An interpretation of graph evaluation: uninterpreted attribute
values, constant and list injections, and an uninterpreted call
semantics depending on the node's op and target. -/
structure Interp (V : Type) where
  call : Op → String → List V → List (String × V) → V
  attr : String → V
  constV : Int → V
  listV : List V → V

mutual

def evalArg {V : Type} (I : Interp V) (σ : List (Nat × V)) : Arg → Option V
  | .node i => alookup σ i
  | .const c => some (I.constV c)
  | .list xs =>
    match evalArgs I σ xs with
    | none => none
    | some vs => some (I.listV vs)

def evalArgs {V : Type} (I : Interp V) (σ : List (Nat × V)) : List Arg → Option (List V)
  | [] => some []
  | x :: xs =>
    match evalArg I σ x with
    | none => none
    | some v =>
      match evalArgs I σ xs with
      | none => none
      | some vs => some (v :: vs)

end

def evalKw {V : Type} (I : Interp V) (σ : List (Nat × V)) :
    List (String × Arg) → Option (List (String × V))
  | [] => some []
  | (k, a) :: rest =>
    match evalArg I σ a with
    | none => none
    | some v =>
      match evalKw I σ rest with
      | none => none
      | some vs => some ((k, v) :: vs)

/-- Evaluation state: values of already-evaluated nodes, remaining
inputs, and outputs produced so far. -/
structure EvalSt (V : Type) where
  venv : List (Nat × V)
  ins : List V
  outs : List V

def evalNode {V : Type} (I : Interp V) (e : EvalSt V) (n : Node) : Option (EvalSt V) :=
  match n.op with
  | .placeholder =>
    match e.ins with
    | [] => none
    | v :: rest => some ⟨(n.id, v) :: e.venv, rest, e.outs⟩
  | .get_attr => some ⟨(n.id, I.attr n.target) :: e.venv, e.ins, e.outs⟩
  | .output =>
    match evalArgs I e.venv n.args with
    | none => none
    | some vs => some ⟨(n.id, I.listV vs) :: e.venv, e.ins, e.outs ++ [I.listV vs]⟩
  | op =>
    match evalArgs I e.venv n.args with
    | none => none
    | some vs =>
      match evalKw I e.venv n.kwargs with
      | none => none
      | some kvs => some ⟨(n.id, I.call op n.target vs kvs) :: e.venv, e.ins, e.outs⟩

def evalNodes {V : Type} (I : Interp V) : EvalSt V → List Node → Option (EvalSt V)
  | e, [] => some e
  | e, n :: rest =>
    match evalNode I e n with
    | none => none
    | some e2 => evalNodes I e2 rest

/-- Run a graph on a list of inputs, returning its outputs. -/
def evalGraph {V : Type} (I : Interp V) (g : List Node) (ins : List V) : Option (List V) :=
  match evalNodes I ⟨[], ins, []⟩ g with
  | none => none
  | some e => some e.outs

theorem alookup_cons {β : Type} (k : Nat) (x : β) (l : List (Nat × β)) (i : Nat) :
    alookup ((k, x) :: l) i = if k = i then some x else alookup l i := rfl

theorem evalNodes_append {V : Type} (I : Interp V) (xs : List Node) (n : Node) :
    ∀ e : EvalSt V, evalNodes I e (xs ++ [n]) =
      match evalNodes I e xs with
      | none => none
      | some e2 => evalNode I e2 n := by
  induction xs with
  | nil =>
    intro e
    show (match evalNode I e n with
      | none => none
      | some e2 => evalNodes I e2 []) = evalNode I e n
    cases evalNode I e n <;> rfl
  | cons x xs ih =>
    intro e
    show (match evalNode I e x with
      | none => none
      | some e2 => evalNodes I e2 (xs ++ [n])) =
      match (match evalNode I e x with
        | none => none
        | some e2 => evalNodes I e2 xs) with
      | none => none
      | some e2 => evalNode I e2 n
    cases evalNode I e x
    · rfl
    · rename_i e2
      exact ih e2

mutual

/-- Extending the value environment with a binding outside an
argument's reference range does not change its evaluation. -/
theorem evalArg_ext {V : Type} (I : Interp V) (σ : List (Nat × V)) (j : Nat) (v : V)
    (lo hi : Nat) (hj : j < lo ∨ hi ≤ j) :
    ∀ a : Arg, argRefsIn lo hi a = true →
    evalArg I ((j, v) :: σ) a = evalArg I σ a
  | .node i, h => by
    simp only [argRefsIn, Bool.and_eq_true, decide_eq_true_eq] at h
    simp only [evalArg, alookup]
    rw [if_neg (by omega)]
  | .const _, _ => rfl
  | .list xs, h => by
    simp only [evalArg]
    rw [evalArgs_ext I σ j v lo hi hj xs (by simpa [argRefsIn] using h)]

theorem evalArgs_ext {V : Type} (I : Interp V) (σ : List (Nat × V)) (j : Nat) (v : V)
    (lo hi : Nat) (hj : j < lo ∨ hi ≤ j) :
    ∀ xs : List Arg, argsRefsIn lo hi xs = true →
    evalArgs I ((j, v) :: σ) xs = evalArgs I σ xs
  | [], _ => rfl
  | x :: xs, h => by
    have h2 : argRefsIn lo hi x = true ∧ argsRefsIn lo hi xs = true := by
      simpa [argsRefsIn, Bool.and_eq_true] using h
    simp only [evalArgs]
    rw [evalArg_ext I σ j v lo hi hj x h2.1, evalArgs_ext I σ j v lo hi hj xs h2.2]

end

theorem evalKw_ext {V : Type} (I : Interp V) (σ : List (Nat × V)) (j : Nat) (v : V)
    (lo hi : Nat) (hj : j < lo ∨ hi ≤ j) :
    ∀ kws : List (String × Arg), kwargsRefsIn lo hi kws = true →
    evalKw I ((j, v) :: σ) kws = evalKw I σ kws
  | [], _ => rfl
  | (k, a) :: rest, h => by
    have h2 : argRefsIn lo hi a = true ∧ kwargsRefsIn lo hi rest = true := by
      simpa [kwargsRefsIn, Bool.and_eq_true] using h
    simp only [evalKw]
    rw [evalArg_ext I σ j v lo hi hj a h2.1, evalKw_ext I σ j v lo hi hj rest h2.2]

mutual

/-- An argument whose references all have defined values evaluates. -/
theorem evalArg_defined {V : Type} (I : Interp V) (σ : List (Nat × V)) (lo hi : Nat)
    (hσ : ∀ i, lo ≤ i → i < hi → (alookup σ i).isSome) :
    ∀ a : Arg, argRefsIn lo hi a = true → (evalArg I σ a).isSome
  | .node i, h => by
    simp only [argRefsIn, Bool.and_eq_true, decide_eq_true_eq] at h
    simpa [evalArg] using hσ i h.1 h.2
  | .const _, _ => by simp [evalArg]
  | .list xs, h => by
    have h2 := evalArgs_defined I σ lo hi hσ xs (by simpa [argRefsIn] using h)
    simp only [evalArg]
    obtain ⟨vs, hvs⟩ := Option.isSome_iff_exists.mp h2
    rw [hvs]
    simp

theorem evalArgs_defined {V : Type} (I : Interp V) (σ : List (Nat × V)) (lo hi : Nat)
    (hσ : ∀ i, lo ≤ i → i < hi → (alookup σ i).isSome) :
    ∀ xs : List Arg, argsRefsIn lo hi xs = true → (evalArgs I σ xs).isSome
  | [], _ => by simp [evalArgs]
  | x :: xs, h => by
    have h2 : argRefsIn lo hi x = true ∧ argsRefsIn lo hi xs = true := by
      simpa [argsRefsIn, Bool.and_eq_true] using h
    have hx := evalArg_defined I σ lo hi hσ x h2.1
    have hxs := evalArgs_defined I σ lo hi hσ xs h2.2
    obtain ⟨v, hv⟩ := Option.isSome_iff_exists.mp hx
    obtain ⟨vs, hvs⟩ := Option.isSome_iff_exists.mp hxs
    simp only [evalArgs]
    rw [hv, hvs]
    simp

end

theorem evalKw_defined {V : Type} (I : Interp V) (σ : List (Nat × V)) (lo hi : Nat)
    (hσ : ∀ i, lo ≤ i → i < hi → (alookup σ i).isSome) :
    ∀ kws : List (String × Arg), kwargsRefsIn lo hi kws = true → (evalKw I σ kws).isSome
  | [], _ => by simp [evalKw]
  | (k, a) :: rest, h => by
    have h2 : argRefsIn lo hi a = true ∧ kwargsRefsIn lo hi rest = true := by
      simpa [kwargsRefsIn, Bool.and_eq_true] using h
    have hx := evalArg_defined I σ lo hi hσ a h2.1
    have hxs := evalKw_defined I σ lo hi hσ rest h2.2
    obtain ⟨v, hv⟩ := Option.isSome_iff_exists.mp hx
    obtain ⟨vs, hvs⟩ := Option.isSome_iff_exists.mp hxs
    simp only [evalKw]
    rw [hv, hvs]
    simp

mutual

/-- An argument with no reference at all (its references lie in two
disjoint ranges) evaluates identically in any two environments. -/
theorem evalArg_of_disjoint {V : Type} (I : Interp V) (σ1 σ2 : List (Nat × V))
    (l1 h1 l2 h2 : Nat) (hd : h2 ≤ l1) :
    ∀ a : Arg, argRefsIn l1 h1 a = true → argRefsIn l2 h2 a = true →
    evalArg I σ1 a = evalArg I σ2 a
  | .node i, ha, hb => by
    simp only [argRefsIn, Bool.and_eq_true, decide_eq_true_eq] at ha hb
    omega
  | .const _, _, _ => rfl
  | .list xs, ha, hb => by
    simp only [evalArg]
    rw [evalArgs_of_disjoint I σ1 σ2 l1 h1 l2 h2 hd xs
      (by simpa [argRefsIn] using ha) (by simpa [argRefsIn] using hb)]

theorem evalArgs_of_disjoint {V : Type} (I : Interp V) (σ1 σ2 : List (Nat × V))
    (l1 h1 l2 h2 : Nat) (hd : h2 ≤ l1) :
    ∀ xs : List Arg, argsRefsIn l1 h1 xs = true → argsRefsIn l2 h2 xs = true →
    evalArgs I σ1 xs = evalArgs I σ2 xs
  | [], _, _ => rfl
  | x :: xs, ha, hb => by
    have ha2 : argRefsIn l1 h1 x = true ∧ argsRefsIn l1 h1 xs = true := by
      simpa [argsRefsIn, Bool.and_eq_true] using ha
    have hb2 : argRefsIn l2 h2 x = true ∧ argsRefsIn l2 h2 xs = true := by
      simpa [argsRefsIn, Bool.and_eq_true] using hb
    simp only [evalArgs]
    rw [evalArg_of_disjoint I σ1 σ2 l1 h1 l2 h2 hd x ha2.1 hb2.1,
      evalArgs_of_disjoint I σ1 σ2 l1 h1 l2 h2 hd xs ha2.2 hb2.2]

end

/-- Semantic link between the old and the new value environments along
`env`: every mapped node has one value stored on both sides. -/
def EnvSem {V : Type} (env : Env) (σo σn : List (Nat × V)) : Prop :=
  ∀ i m, alookup env i = some m → ∃ v, alookup σo i = some v ∧ alookup σn m.id = some v

mutual

/-- `map_arg` through `env` preserves evaluation along `EnvSem`. -/
theorem mapArg_eval {V : Type} (I : Interp V) (env : Env) (σo σn : List (Nat × V))
    (hlink : EnvSem env σo σn) :
    ∀ a a2 : Arg, mapArgRec env a = .ok a2 →
    ∃ v, evalArg I σo a = some v ∧ evalArg I σn a2 = some v
  | .node i, a2, h => by
    simp only [mapArgRec] at h
    cases he : alookup env i with
    | none => rw [he] at h; exact absurd h (by simp)
    | some m =>
      rw [he] at h
      have ha2 : a2 = .node m.id := by
        simpa using h.symm
      obtain ⟨v, hv1, hv2⟩ := hlink i m he
      exact ⟨v, by simpa [evalArg] using hv1, by simp [ha2, evalArg, hv2]⟩
  | .const c, a2, h => by
    have ha2 : a2 = .const c := by simpa [mapArgRec] using h.symm
    exact ⟨I.constV c, rfl, by simp [ha2, evalArg]⟩
  | .list xs, a2, h => by
    simp only [mapArgRec] at h
    cases hys : mapArgsRec env xs with
    | error e => rw [hys] at h; exact absurd h (by simp)
    | ok ys =>
      rw [hys] at h
      have ha2 : a2 = .list ys := by simpa using h.symm
      obtain ⟨vs, hv1, hv2⟩ := mapArgs_eval I env σo σn hlink xs ys hys
      exact ⟨I.listV vs, by simp [evalArg, hv1], by simp [ha2, evalArg, hv2]⟩

theorem mapArgs_eval {V : Type} (I : Interp V) (env : Env) (σo σn : List (Nat × V))
    (hlink : EnvSem env σo σn) :
    ∀ xs ys : List Arg, mapArgsRec env xs = .ok ys →
    ∃ vs, evalArgs I σo xs = some vs ∧ evalArgs I σn ys = some vs
  | [], ys, h => by
    have hys : ys = [] := by simpa [mapArgsRec] using h.symm
    exact ⟨[], rfl, by simp [hys, evalArgs]⟩
  | x :: xs, ys, h => by
    simp only [mapArgsRec] at h
    cases hy : mapArgRec env x with
    | error e => rw [hy] at h; exact absurd h (by simp)
    | ok y =>
      rw [hy] at h
      cases hys2 : mapArgsRec env xs with
      | error e => rw [hys2] at h; exact absurd h (by simp)
      | ok ys2 =>
        rw [hys2] at h
        have hys : ys = y :: ys2 := by simpa using h.symm
        obtain ⟨v, hv1, hv2⟩ := mapArg_eval I env σo σn hlink x y hy
        obtain ⟨vs, hvs1, hvs2⟩ := mapArgs_eval I env σo σn hlink xs ys2 hys2
        exact ⟨v :: vs, by simp [evalArgs, hv1, hvs1], by simp [hys, evalArgs, hv2, hvs2]⟩

end

theorem mapKwargs_eval {V : Type} (I : Interp V) (env : Env) (σo σn : List (Nat × V))
    (hlink : EnvSem env σo σn) :
    ∀ kws kws2 : List (String × Arg), mapKwargsRec env kws = .ok kws2 →
    ∃ kvs, evalKw I σo kws = some kvs ∧ evalKw I σn kws2 = some kvs
  | [], kws2, h => by
    have h2 : kws2 = [] := by simpa [mapKwargsRec] using h.symm
    exact ⟨[], rfl, by simp [h2, evalKw]⟩
  | (k, a) :: rest, kws2, h => by
    simp only [mapKwargsRec] at h
    cases hy : mapArgRec env a with
    | error e => rw [hy] at h; exact absurd h (by simp)
    | ok y =>
      rw [hy] at h
      cases hr : mapKwargsRec env rest with
      | error e => rw [hr] at h; exact absurd h (by simp)
      | ok rest2 =>
        rw [hr] at h
        have h2 : kws2 = (k, y) :: rest2 := by simpa using h.symm
        obtain ⟨v, hv1, hv2⟩ := mapArg_eval I env σo σn hlink a y hy
        obtain ⟨kvs, hk1, hk2⟩ := mapKwargs_eval I env σo σn hlink rest rest2 hr
        exact ⟨(k, v) :: kvs, by simp [evalKw, hv1, hk1], by simp [h2, evalKw, hv2, hk2]⟩

/-- What a successful `check_args` loop guarantees per argument pair:
syntactic equality, or two node references linked through `env`. -/
theorem check_args_loop_spec (env : Env) :
    ∀ ps : List (Arg × Arg), check_args_loop env ps = .ok true →
    ∀ na oa, (na, oa) ∈ ps → na = oa ∨
      ∃ i m, na = .node m.id ∧ oa = .node i ∧ alookup env i = some m := by
    intro ps
    induction ps with
    | nil => intro h na oa hmem; exact absurd hmem (by simp)
    | cons p rest ih =>
      intro h na oa hmem
      obtain ⟨na0, oa0⟩ := p
      simp only [check_args_loop] at h
      have hstep : check_args_loop env rest = .ok true ∧
          (na0 = oa0 ∨ ∃ i m, na0 = .node m.id ∧ oa0 = .node i ∧ alookup env i = some m) := by
        split at h
        · exact ⟨h, .inl (by assumption)⟩
        · split at h
          · split at h
            · split at h
              · exact absurd h (by simp)
              · rename_i hm
                split at h
                · rename_i hj
                  exact ⟨h, .inr ⟨_, _, by rw [hj], rfl, hm⟩⟩
                · exact absurd h (by simp)
            · exact absurd h (by simp)
            · exact absurd h (by simp)
          · exact absurd h (by simp)
      rcases List.mem_cons.mp hmem with hmem | hmem
      · have hna : na = na0 := congrArg Prod.fst hmem
        have hoa : oa = oa0 := congrArg Prod.snd hmem
        rw [hna, hoa]
        exact hstep.2
      · exact ih hstep.1 na oa hmem

/-- What `check_same(m, n, env) == True` guarantees. -/
theorem check_same_spec (env : Env) (m n : Node) (h : check_same env m n = .ok true) :
    m.target = n.target ∧ m.args.length = n.args.length ∧
    (∀ na oa, (na, oa) ∈ m.args.zip n.args → na = oa ∨
      ∃ i m2, na = .node m2.id ∧ oa = .node i ∧ alookup env i = some m2) ∧
    m.kwargs = [] ∧ n.kwargs = [] := by
  unfold check_same at h
  split at h
  · exact absurd h (by simp)
  · rename_i htgt
    cases hca : check_args env m.args n.args with
    | error e => rw [hca] at h; exact absurd h (by simp)
    | ok b =>
      rw [hca] at h
      cases b with
      | false => exact absurd h (by simp)
      | true =>
        simp only [Bool.not_true, Bool.false_eq_true, if_false] at h
        cases hck : check_kwargs m.kwargs n.kwargs with
        | error e => rw [hck] at h; exact absurd h (by simp)
        | ok b2 =>
          rw [hck] at h
          cases b2 with
          | false => exact absurd h (by simp)
          | true =>
            unfold check_args at hca
            split at hca
            · exact absurd hca (by simp)
            · rename_i hlen
              unfold check_kwargs at hck
              split at hck
              · exact absurd hck (by simp)
              · rename_i hklen
                split at hck
                · rename_i hk0
                  have hlen2 := not_not.mp hlen
                  have hklen2 := not_not.mp hklen
                  refine ⟨not_not.mp htgt, hlen2, check_args_loop_spec env _ hca, ?_, ?_⟩
                  · exact List.eq_nil_of_length_eq_zero hk0
                  · exact List.eq_nil_of_length_eq_zero (by omega)
                · exact absurd hck (by simp)

mutual

/-- Mapped arguments only reference new-graph nodes, whose ids are
bounded by the `env` value bounds. -/
theorem mapArg_refs (env : Env) (lo hi : Nat)
    (hb : ∀ i m, alookup env i = some m → lo ≤ m.id ∧ m.id < hi) :
    ∀ a a2 : Arg, mapArgRec env a = .ok a2 → argRefsIn lo hi a2 = true
  | .node i, a2, h => by
    simp only [mapArgRec] at h
    cases he : alookup env i with
    | none => rw [he] at h; exact absurd h (by simp)
    | some m =>
      rw [he] at h
      have ha2 : a2 = .node m.id := by simpa using h.symm
      have := hb i m he
      simp [ha2, argRefsIn]
      omega
  | .const c, a2, h => by
    have ha2 : a2 = .const c := by simpa [mapArgRec] using h.symm
    simp [ha2, argRefsIn]
  | .list xs, a2, h => by
    simp only [mapArgRec] at h
    cases hys : mapArgsRec env xs with
    | error e => rw [hys] at h; exact absurd h (by simp)
    | ok ys =>
      rw [hys] at h
      have ha2 : a2 = .list ys := by simpa using h.symm
      simpa [ha2, argRefsIn] using mapArgs_refs env lo hi hb xs ys hys

theorem mapArgs_refs (env : Env) (lo hi : Nat)
    (hb : ∀ i m, alookup env i = some m → lo ≤ m.id ∧ m.id < hi) :
    ∀ xs ys : List Arg, mapArgsRec env xs = .ok ys → argsRefsIn lo hi ys = true
  | [], ys, h => by
    have hys : ys = [] := by simpa [mapArgsRec] using h.symm
    simp [hys, argsRefsIn]
  | x :: xs, ys, h => by
    simp only [mapArgsRec] at h
    cases hy : mapArgRec env x with
    | error e => rw [hy] at h; exact absurd h (by simp)
    | ok y =>
      rw [hy] at h
      cases hys2 : mapArgsRec env xs with
      | error e => rw [hys2] at h; exact absurd h (by simp)
      | ok ys2 =>
        rw [hys2] at h
        have hys : ys = y :: ys2 := by simpa using h.symm
        have h1 := mapArg_refs env lo hi hb x y hy
        have h2 := mapArgs_refs env lo hi hb xs ys2 hys2
        simp [hys, argsRefsIn, h1, h2]

end

theorem mapKwargs_refs (env : Env) (lo hi : Nat)
    (hb : ∀ i m, alookup env i = some m → lo ≤ m.id ∧ m.id < hi) :
    ∀ kws kws2 : List (String × Arg), mapKwargsRec env kws = .ok kws2 →
    kwargsRefsIn lo hi kws2 = true
  | [], kws2, h => by
    have h2 : kws2 = [] := by simpa [mapKwargsRec] using h.symm
    simp [h2, kwargsRefsIn]
  | (k, a) :: rest, kws2, h => by
    simp only [mapKwargsRec] at h
    cases hy : mapArgRec env a with
    | error e => rw [hy] at h; exact absurd h (by simp)
    | ok y =>
      rw [hy] at h
      cases hr : mapKwargsRec env rest with
      | error e => rw [hr] at h; exact absurd h (by simp)
      | ok rest2 =>
        rw [hr] at h
        have h2 : kws2 = (k, y) :: rest2 := by simpa using h.symm
        have hy2 := mapArg_refs env lo hi hb a y hy
        have hr2 := mapKwargs_refs env lo hi hb rest rest2 hr
        simp only [h2, kwargsRefsIn, List.all_cons, Bool.and_eq_true]
        exact ⟨hy2, by simpa [kwargsRefsIn] using hr2⟩

mutual

/-- Extending `env` with a fresh key outside an argument's reference
range does not change its recursive mapping. -/
theorem mapArg_ext (env : Env) (k : Nat) (m0 : Node) (lo hi : Nat)
    (hk : k < lo ∨ hi ≤ k) :
    ∀ a : Arg, argRefsIn lo hi a = true →
    mapArgRec ((k, m0) :: env) a = mapArgRec env a
  | .node i, h => by
    simp only [argRefsIn, Bool.and_eq_true, decide_eq_true_eq] at h
    simp only [mapArgRec, alookup]
    rw [if_neg (by omega)]
  | .const _, _ => rfl
  | .list xs, h => by
    simp only [mapArgRec]
    rw [mapArgs_ext env k m0 lo hi hk xs (by simpa [argRefsIn] using h)]

theorem mapArgs_ext (env : Env) (k : Nat) (m0 : Node) (lo hi : Nat)
    (hk : k < lo ∨ hi ≤ k) :
    ∀ xs : List Arg, argsRefsIn lo hi xs = true →
    mapArgsRec ((k, m0) :: env) xs = mapArgsRec env xs
  | [], _ => rfl
  | x :: xs, h => by
    have h2 : argRefsIn lo hi x = true ∧ argsRefsIn lo hi xs = true := by
      simpa [argsRefsIn, Bool.and_eq_true] using h
    simp only [mapArgsRec]
    rw [mapArg_ext env k m0 lo hi hk x h2.1, mapArgs_ext env k m0 lo hi hk xs h2.2]

end

theorem mapKwargs_ext (env : Env) (k : Nat) (m0 : Node) (lo hi : Nat)
    (hk : k < lo ∨ hi ≤ k) :
    ∀ kws : List (String × Arg), kwargsRefsIn lo hi kws = true →
    mapKwargsRec ((k, m0) :: env) kws = mapKwargsRec env kws
  | [], _ => rfl
  | (s, a) :: rest, h => by
    have h2 : argRefsIn lo hi a = true ∧ kwargsRefsIn lo hi rest = true := by
      simpa [kwargsRefsIn, Bool.and_eq_true] using h
    simp only [mapKwargsRec]
    rw [mapArg_ext env k m0 lo hi hk a h2.1, mapKwargs_ext env k m0 lo hi hk rest h2.2]

/-- Structural invariant of the loop of `modify` after processing the
first `p` nodes of `g`. -/
structure SInv (g : List Node) (p : Nat) (st : CseState) : Prop where
  base_eq : st.base = g.length
  len_le : st.newG.length ≤ p
  p_le : p ≤ g.length
  newG_ids : ∀ k m, st.newG.get? k = some m → m.id = st.base + k ∧
    argsRefsIn st.base (st.base + k) m.args = true ∧
    kwargsRefsIn st.base (st.base + k) m.kwargs = true
  env_dom : ∀ i, (alookup st.env i).isSome ↔ i < p
  env_mem : ∀ i m, alookup st.env i = some m → m ∈ st.newG
  env_bound : ∀ i m, alookup st.env i = some m →
    st.base ≤ m.id ∧ m.id < st.base + st.newG.length
  henv_inv : ∀ hv m, (hv, m) ∈ st.henv → m ∈ st.newG ∧ nonCall m.op = false ∧
    ∃ k n0, g.get? k = some n0 ∧ k < p ∧ nonCall n0.op = false ∧
      m.op = n0.op ∧ m.target = n0.target
  copies : ∀ k n0, g.get? k = some n0 → k < p → nonCall n0.op = true →
    ∃ m, alookup st.env k = some m ∧ m ∈ st.newG ∧ m.op = n0.op ∧ m.target = n0.target ∧
      mapArgsRec st.env n0.args = .ok m.args ∧ mapKwargsRec st.env n0.kwargs = .ok m.kwargs
  mono : ∀ k1 k2 n1 n2 m1 m2, k1 < k2 → k2 < p →
    g.get? k1 = some n1 → g.get? k2 = some n2 →
    nonCall n1.op = true → nonCall n2.op = true →
    alookup st.env k1 = some m1 → alookup st.env k2 = some m2 → m1.id < m2.id

theorem wfAux_get : ∀ (g0 : List Node) (k0 k : Nat) (n : Node),
    wfAux k0 g0 = true → g0.get? k = some n → wfNode (k0 + k) n = true
  | [], _, k, n, _, hg => absurd hg (by simp)
  | m :: rest, k0, 0, n, hw, hg => by
    have h2 : wfNode k0 m = true ∧ wfAux (k0 + 1) rest = true := by
      simpa [wfAux, Bool.and_eq_true] using hw
    have hnm : m = n := by simpa using hg
    rw [← hnm, Nat.add_zero]
    exact h2.1
  | m :: rest, k0, k + 1, n, hw, hg => by
    have h2 : wfNode k0 m = true ∧ wfAux (k0 + 1) rest = true := by
      simpa [wfAux, Bool.and_eq_true] using hw
    have hrec := wfAux_get rest (k0 + 1) k n h2.2 (by simpa using hg)
    have he : k0 + 1 + k = k0 + (k + 1) := by omega
    rw [← he]
    exact hrec

/-- Well-formedness facts of the node at position `k`. -/
theorem wfNode_of_get (g : List Node) (k : Nat) (n : Node)
    (hwfg : wfGraph g = true) (hg : g.get? k = some n) :
    n.id = k ∧ argsRefsIn 0 k n.args = true ∧ kwargsRefsIn 0 k n.kwargs = true := by
  have := wfAux_get g 0 k n hwfg hg
  rw [Nat.zero_add] at this
  simpa [wfNode, Bool.and_eq_true, decide_eq_true_eq, and_assoc] using this

theorem get_lt_length {α : Type} (l : List α) (k : Nat) (a : α) (h : l.get? k = some a) :
    k < l.length := by
  by_contra hk
  rw [List.get?_eq_none.mpr (by omega)] at h
  exact absurd h (by simp)

theorem mem_of_get? {α : Type} (l : List α) (k : Nat) (a : α) (h : l.get? k = some a) :
    a ∈ l := List.get?_mem h

/-- A member of the new graph sits at some position. -/
theorem get?_of_mem {α : Type} (l : List α) (a : α) (h : a ∈ l) :
    ∃ k, l.get? k = some a := by
  obtain ⟨⟨k, hk⟩, he⟩ := List.mem_iff_get.mp h
  exact ⟨k, by rw [List.get?_eq_get hk, he]⟩

/-- The id of any node of the new graph is below `base + length`. -/
theorem newG_id_bound (g : List Node) (p : Nat) (st : CseState) (hS : SInv g p st)
    (m : Node) (hm : m ∈ st.newG) :
    st.base ≤ m.id ∧ m.id < st.base + st.newG.length := by
  obtain ⟨k, hk⟩ := get?_of_mem st.newG m hm
  have h2 := (hS.newG_ids k m hk).1
  have h3 := get_lt_length st.newG k m hk
  omega

/-- `copies` and `mono` survive the extension of `env` with the binding
for the node at position `p`. -/
theorem copies_ext (g : List Node) (p : Nat) (st : CseState) (m0 : Node)
    (hwfg : wfGraph g = true) (hS : SInv g p st) :
    ∀ k n0, g.get? k = some n0 → k < p → nonCall n0.op = true →
    ∃ m, alookup ((p, m0) :: st.env) k = some m ∧ m ∈ st.newG ∧ m.op = n0.op ∧
      m.target = n0.target ∧ mapArgsRec ((p, m0) :: st.env) n0.args = .ok m.args ∧
      mapKwargsRec ((p, m0) :: st.env) n0.kwargs = .ok m.kwargs := by
  intro k n0 hg hk hnc
  obtain ⟨m, h1, h2, h3, h4, h5, h6⟩ := hS.copies k n0 hg hk hnc
  obtain ⟨_, hrefs, hkrefs⟩ := wfNode_of_get g k n0 hwfg hg
  refine ⟨m, ?_, h2, h3, h4, ?_, ?_⟩
  · rw [alookup_cons, if_neg (by omega)]
    exact h1
  · rw [mapArgs_ext st.env p m0 0 k (by omega) n0.args hrefs]
    exact h5
  · rw [mapKwargs_ext st.env p m0 0 k (by omega) n0.kwargs hkrefs]
    exact h6

theorem hlookup_mem : ∀ (l : List (HashVal × Node)) (h : HashVal) (m : Node),
    hlookup l h = some m → (h, m) ∈ l
  | [], _, _, hl => absurd hl (by simp [hlookup])
  | p :: rest, h, m, hl => by
    rw [hlookup] at hl
    split at hl
    · rename_i hph
      have h2 : p.2 = m := Option.some.inj hl
      rw [← hph, ← h2]
      exact List.mem_cons_self _ _
    · exact List.mem_cons.mpr (.inr (hlookup_mem rest h m hl))

/-- The copy path (`node_copy` plus the `env` binding) preserves the
structural invariant, both for the non-call branch and for the call
copy branch. -/
theorem SInv_copy (g : List Node) (p : Nat) (st st2 : CseState) (n m : Node)
    (hwfg : wfGraph g = true) (hg : g.get? p = some n) (hS : SInv g p st)
    (hcp : copyNode st n = .ok m)
    (hb : st2.base = st.base) (hng : st2.newG = st.newG ++ [m])
    (he : st2.env = (n.id, m) :: st.env)
    (hh : ∀ hv m', (hv, m') ∈ st2.henv →
      (hv, m') ∈ st.henv ∨ (m' = m ∧ nonCall n.op = false)) :
    SInv g (p + 1) st2 := by
  have hple : p < g.length := get_lt_length g p n hg
  obtain ⟨hid, hargs0, hkw0⟩ := wfNode_of_get g p n hwfg hg
  unfold copyNode at hcp
  cases hma : mapArgsRec st.env n.args with
  | error e => rw [hma] at hcp; exact absurd hcp (by simp)
  | ok args2 =>
    rw [hma] at hcp
    cases hmk : mapKwargsRec st.env n.kwargs with
    | error e => rw [hmk] at hcp; exact absurd hcp (by simp)
    | ok kw2 =>
      rw [hmk] at hcp
      have hm : m = ⟨st.base + st.newG.length, n.op, n.target, args2, kw2⟩ :=
        (Except.ok.inj hcp).symm
      have hmid : m.id = st.base + st.newG.length := congrArg Node.id hm
      have hmop : m.op = n.op := by rw [hm]
      have hmtg : m.target = n.target := by rw [hm]
      have hmargs : m.args = args2 := congrArg Node.args hm
      have hmkw : m.kwargs = kw2 := congrArg Node.kwargs hm
      have hrefs_m : argsRefsIn st.base (st.base + st.newG.length) m.args = true := by
        rw [hmargs]
        exact mapArgs_refs st.env st.base (st.base + st.newG.length)
          hS.env_bound n.args args2 hma
      have hkrefs_m : kwargsRefsIn st.base (st.base + st.newG.length) m.kwargs = true := by
        rw [hmkw]
        exact mapKwargs_refs st.env st.base (st.base + st.newG.length)
          hS.env_bound n.kwargs kw2 hmk
      refine ⟨?_, ?_, ?_, ?_, ?_, ?_, ?_, ?_, ?_, ?_⟩
      · rw [hb]; exact hS.base_eq
      · have hl := hS.len_le
        rw [hng, List.length_append, List.length_cons, List.length_nil]
        omega
      · omega
      · intro k m' h'
        rw [hng] at h'
        rw [hb]
        rcases Nat.lt_trichotomy k st.newG.length with hk | hk | hk
        · rw [List.get?_append hk] at h'
          exact hS.newG_ids k m' h'
        · rw [hk, List.get?_concat_length] at h'
          have hm' : m = m' := Option.some.inj h'
          rw [← hm', hk]
          exact ⟨hmid, hrefs_m, hkrefs_m⟩
        · rw [List.get?_eq_none.mpr
            (by rw [List.length_append, List.length_cons, List.length_nil]; omega)] at h'
          exact absurd h' (by simp)
      · intro i
        rw [he, alookup_cons, hid]
        by_cases hi : p = i
        · rw [if_pos hi]
          constructor
          · intro _; omega
          · intro _; rfl
        · rw [if_neg hi]
          rw [hS.env_dom i]
          omega
      · intro i m' h'
        rw [he, alookup_cons] at h'
        rw [hng]
        split at h'
        · have hmm : m = m' := Option.some.inj h'
          exact List.mem_append_right _ (by rw [← hmm]; exact List.mem_cons_self _ _)
        · exact List.mem_append_left _ (hS.env_mem i m' h')
      · intro i m' h'
        rw [he, alookup_cons] at h'
        rw [hb, hng, List.length_append, List.length_cons, List.length_nil]
        split at h'
        · have hmm : m = m' := Option.some.inj h'
          rw [← hmm]
          omega
        · have := hS.env_bound i m' h'
          omega
      · intro hv m' hmem
        rcases hh hv m' hmem with hold | ⟨hm', hnc⟩
        · obtain ⟨h1, h2, k, n0, h3, h4, h5, h6, h7⟩ := hS.henv_inv hv m' hold
          exact ⟨by rw [hng]; exact List.mem_append_left _ h1, h2, k, n0, h3,
            by omega, h5, h6, h7⟩
        · subst hm'
          refine ⟨by rw [hng]; exact List.mem_append_right _ (List.mem_cons_self _ _), ?_,
            p, n, hg, by omega, hnc, hmop, hmtg⟩
          rw [hmop]
          exact hnc
      · intro k n0 hgk hk hnc0
        rcases Nat.lt_or_ge k p with hklt | hkge
        · obtain ⟨m2, h1, h2, h3, h4, h5, h6⟩ :=
            copies_ext g p st m hwfg hS k n0 hgk hklt hnc0
          rw [he, hng, hid]
          exact ⟨m2, h1, List.mem_append_left _ h2, h3, h4, h5, h6⟩
        · have hkp : k = p := by omega
          have hn0 : n = n0 := by
            rw [hkp, hg] at hgk
            exact Option.some.inj hgk
          rw [he, hng, hid, hkp, ← hn0]
          refine ⟨m, ?_, List.mem_append_right _ (List.mem_cons_self _ _), hmop, hmtg, ?_, ?_⟩
          · rw [alookup_cons, if_pos rfl]
          · rw [mapArgs_ext st.env p m 0 p (Or.inr le_rfl) n.args hargs0, hma, hmargs]
          · rw [mapKwargs_ext st.env p m 0 p (Or.inr le_rfl) n.kwargs hkw0, hmk, hmkw]
      · intro k1 k2 n1 n2 m1 m2 h12 hk2 hg1 hg2 hnc1 hnc2 hl1 hl2
        rw [he, alookup_cons, hid] at hl1 hl2
        rw [if_neg (by omega)] at hl1
        rcases Nat.lt_or_ge k2 p with hk2lt | hk2ge
        · rw [if_neg (by omega)] at hl2
          exact hS.mono k1 k2 n1 n2 m1 m2 h12 hk2lt hg1 hg2 hnc1 hnc2 hl1 hl2
        · rw [if_pos (by omega)] at hl2
          have hm2 : m = m2 := Option.some.inj hl2
          have hb1 := hS.env_bound k1 m1 hl1
          rw [← hm2, hmid]
          omega

/-- The merge path (hash hit plus `check_same` returning `True`)
preserves the structural invariant. -/
theorem SInv_merge (g : List Node) (p : Nat) (st st2 : CseState) (n m : Node)
    (hwfg : wfGraph g = true) (hg : g.get? p = some n) (hS : SInv g p st)
    (hnc : nonCall n.op = false)
    (hl : hlookup st.henv (hashOf st.env n) = some m)
    (hb : st2.base = st.base) (hng : st2.newG = st.newG)
    (he : st2.env = (n.id, m) :: st.env) (hhe : st2.henv = st.henv) :
    SInv g (p + 1) st2 := by
  have hple : p < g.length := get_lt_length g p n hg
  obtain ⟨hid, hargs0, hkw0⟩ := wfNode_of_get g p n hwfg hg
  have hmmem : m ∈ st.newG := (hS.henv_inv _ m (hlookup_mem st.henv _ m hl)).1
  have hmb := newG_id_bound g p st hS m hmmem
  refine ⟨?_, ?_, ?_, ?_, ?_, ?_, ?_, ?_, ?_, ?_⟩
  · rw [hb]; exact hS.base_eq
  · have := hS.len_le
    rw [hng]
    omega
  · omega
  · intro k m' h'
    rw [hng] at h'
    rw [hb]
    exact hS.newG_ids k m' h'
  · intro i
    rw [he, alookup_cons, hid]
    by_cases hi : p = i
    · rw [if_pos hi]
      constructor
      · intro _; omega
      · intro _; rfl
    · rw [if_neg hi]
      rw [hS.env_dom i]
      omega
  · intro i m' h'
    rw [he, alookup_cons] at h'
    rw [hng]
    split at h'
    · rw [← Option.some.inj h']
      exact hmmem
    · exact hS.env_mem i m' h'
  · intro i m' h'
    rw [he, alookup_cons] at h'
    rw [hb, hng]
    split at h'
    · rw [← Option.some.inj h']
      exact hmb
    · exact hS.env_bound i m' h'
  · intro hv m' hmem
    rw [hhe] at hmem
    obtain ⟨h1, h2, k, n0, h3, h4, h5, h6, h7⟩ := hS.henv_inv hv m' hmem
    exact ⟨by rw [hng]; exact h1, h2, k, n0, h3, by omega, h5, h6, h7⟩
  · intro k n0 hgk hk hnc0
    rcases Nat.lt_or_ge k p with hklt | hkge
    · obtain ⟨m2, h1, h2, h3, h4, h5, h6⟩ :=
        copies_ext g p st m hwfg hS k n0 hgk hklt hnc0
      rw [he, hng, hid]
      exact ⟨m2, h1, h2, h3, h4, h5, h6⟩
    · have hkp : k = p := by omega
      have hn0 : n = n0 := by
        rw [hkp, hg] at hgk
        exact Option.some.inj hgk
      rw [← hn0] at hnc0
      rw [hnc0] at hnc
      simp at hnc
  · intro k1 k2 n1 n2 m1 m2 h12 hk2 hg1 hg2 hnc1 hnc2 hl1 hl2
    rw [he, alookup_cons, hid] at hl1 hl2
    rw [if_neg (by omega)] at hl1
    rcases Nat.lt_or_ge k2 p with hk2lt | hk2ge
    · rw [if_neg (by omega)] at hl2
      exact hS.mono k1 k2 n1 n2 m1 m2 h12 hk2lt hg1 hg2 hnc1 hnc2 hl1 hl2
    · have hkp : k2 = p := by omega
      have hn2 : n = n2 := by
        rw [hkp, hg] at hg2
        exact Option.some.inj hg2
      rw [← hn2] at hnc2
      rw [hnc2] at hnc
      simp at hnc

/-- One iteration of the loop of `modify` preserves the structural
invariant. -/
theorem step_SInv (g : List Node) (p : Nat) (st st2 : CseState) (n : Node)
    (hwfg : wfGraph g = true) (hg : g.get? p = some n)
    (hS : SInv g p st) (hstep : step st n = .ok st2) :
    SInv g (p + 1) st2 := by
  unfold step at hstep
  split at hstep
  · cases hcp : copyNode st n with
    | error e => rw [hcp] at hstep; simp at hstep
    | ok m =>
      rw [hcp] at hstep
      simp only [Except.ok.injEq] at hstep
      exact SInv_copy g p st st2 n m hwfg hg hS hcp
        (by rw [← hstep]) (by rw [← hstep]) (by rw [← hstep])
        (by rw [← hstep]; exact fun hv m' hmem => .inl hmem)
  · rename_i hnc
    have hnc2 : nonCall n.op = false := by simpa using hnc
    cases hl : hlookup st.henv (hashOf st.env n) with
    | some m =>
      simp only [hl] at hstep
      cases hcs : check_same st.env m n with
      | error e => rw [hcs] at hstep; simp at hstep
      | ok b =>
        rw [hcs] at hstep
        cases b with
        | true =>
          simp only [Except.ok.injEq] at hstep
          exact SInv_merge g p st st2 n m hwfg hg hS hnc2 hl
            (by rw [← hstep]) (by rw [← hstep]) (by rw [← hstep]) (by rw [← hstep])
        | false =>
          replace hstep : copyCall st n (hashOf st.env n) = .ok st2 := hstep
          unfold copyCall at hstep
          cases hcp : copyNode st n with
          | error e => rw [hcp] at hstep; simp at hstep
          | ok m2 =>
            rw [hcp] at hstep
            simp only [Except.ok.injEq] at hstep
            refine SInv_copy g p st st2 n m2 hwfg hg hS hcp
              (by rw [← hstep]) (by rw [← hstep]) (by rw [← hstep]) ?_
            rw [← hstep]
            intro hv m' hmem
            rcases List.mem_cons.mp hmem with hme | hmem2
            · exact .inr ⟨congrArg Prod.snd hme, hnc2⟩
            · exact .inl hmem2
    | none =>
      simp only [hl] at hstep
      replace hstep : copyCall st n (hashOf st.env n) = .ok st2 := hstep
      unfold copyCall at hstep
      cases hcp : copyNode st n with
      | error e => rw [hcp] at hstep; simp at hstep
      | ok m2 =>
        rw [hcp] at hstep
        simp only [Except.ok.injEq] at hstep
        refine SInv_copy g p st st2 n m2 hwfg hg hS hcp
          (by rw [← hstep]) (by rw [← hstep]) (by rw [← hstep]) ?_
        rw [← hstep]
        intro hv m' hmem
        rcases List.mem_cons.mp hmem with hme | hmem2
        · exact .inr ⟨congrArg Prod.snd hme, hnc2⟩
        · exact .inl hmem2

mutual

/-- Reference ranges can be weakened. -/
theorem argRefsIn_mono (lo hi lo' hi' : Nat) (hlo : lo' ≤ lo) (hhi : hi ≤ hi') :
    ∀ a : Arg, argRefsIn lo hi a = true → argRefsIn lo' hi' a = true
  | .node i, h => by
    simp only [argRefsIn, Bool.and_eq_true, decide_eq_true_eq] at h ⊢
    omega
  | .const _, _ => rfl
  | .list xs, h => by
    simp only [argRefsIn] at h ⊢
    exact argsRefsIn_mono lo hi lo' hi' hlo hhi xs h

theorem argsRefsIn_mono (lo hi lo' hi' : Nat) (hlo : lo' ≤ lo) (hhi : hi ≤ hi') :
    ∀ xs : List Arg, argsRefsIn lo hi xs = true → argsRefsIn lo' hi' xs = true
  | [], _ => rfl
  | x :: xs, h => by
    have h2 : argRefsIn lo hi x = true ∧ argsRefsIn lo hi xs = true := by
      simpa [argsRefsIn, Bool.and_eq_true] using h
    simp only [argsRefsIn, Bool.and_eq_true]
    exact ⟨argRefsIn_mono lo hi lo' hi' hlo hhi x h2.1,
      argsRefsIn_mono lo hi lo' hi' hlo hhi xs h2.2⟩

end

theorem argsRefsIn_mem (lo hi : Nat) :
    ∀ (xs : List Arg) (a : Arg), argsRefsIn lo hi xs = true → a ∈ xs →
    argRefsIn lo hi a = true
  | [], a, _, hmem => absurd hmem (by simp)
  | x :: xs, a, h, hmem => by
    have h2 : argRefsIn lo hi x = true ∧ argsRefsIn lo hi xs = true := by
      simpa [argsRefsIn, Bool.and_eq_true] using h
    rcases List.mem_cons.mp hmem with he | hmem2
    · rw [he]; exact h2.1
    · exact argsRefsIn_mem lo hi xs a h2.2 hmem2

/-- Pointwise equal argument evaluations give equal list evaluations. -/
theorem zip_evalArgs_eq {V : Type} (I : Interp V) (σn σo : List (Nat × V)) :
    ∀ (nas oas : List Arg), nas.length = oas.length →
    (∀ na oa, (na, oa) ∈ nas.zip oas → evalArg I σn na = evalArg I σo oa) →
    evalArgs I σn nas = evalArgs I σo oas
  | [], [], _, _ => rfl
  | [], _ :: _, h, _ => by simp at h
  | _ :: _, [], h, _ => by simp at h
  | na :: nas, oa :: oas, h, hrel => by
    have h1 : evalArg I σn na = evalArg I σo oa :=
      hrel na oa (by rw [List.zip_cons_cons]; exact List.mem_cons_self _ _)
    have h2 : evalArgs I σn nas = evalArgs I σo oas :=
      zip_evalArgs_eq I σn σo nas oas (by simpa using h)
        (fun na' oa' hm => hrel na' oa'
          (by rw [List.zip_cons_cons]; exact List.mem_cons_of_mem _ hm))
    simp only [evalArgs, h1, h2]

/-- What `stso` guarantees: call nodes sharing a target share the op. -/
theorem stso_spec (g : List Node) (h : stso g = true) :
    ∀ n1, n1 ∈ g → ∀ n2, n2 ∈ g → nonCall n1.op = false → nonCall n2.op = false →
    n1.target = n2.target → n1.op = n2.op := by
  intro n1 h1 n2 h2 hf1 hf2 htg
  unfold stso at h
  rw [List.all_eq_true] at h
  have h3 := h n1 h1
  rw [List.all_eq_true] at h3
  have h4 := h3 n2 h2
  rw [hf1, hf2] at h4
  simp at h4
  rcases h4 with h5 | h5
  · exact absurd htg h5
  · exact h5

theorem take_succ_of_get (g : List Node) (p : Nat) (n : Node) (hg : g.get? p = some n) :
    g.take (p + 1) = g.take p ++ [n] := by
  rw [List.take_succ]
  rw [List.get?_eq_getElem?] at hg
  rw [hg]
  rfl

/-- Extending both value environments with the same value preserves the
semantic link. -/
theorem EnvSem_extend {V : Type} (env : Env) (σo σn : List (Nat × V)) (p : Nat)
    (m : Node) (w : V) (hlink : EnvSem env σo σn)
    (hfresh : ∀ i m', alookup env i = some m' → m'.id ≠ m.id) :
    EnvSem ((p, m) :: env) ((p, w) :: σo) ((m.id, w) :: σn) := by
  intro i m' h'
  rw [alookup_cons] at h'
  split at h'
  · rename_i hpi
    have hm' : m = m' := Option.some.inj h'
    refine ⟨w, ?_, ?_⟩
    · rw [alookup_cons, if_pos hpi]
    · rw [← hm', alookup_cons, if_pos rfl]
  · rename_i hpi
    obtain ⟨v, hv1, hv2⟩ := hlink i m' h'
    refine ⟨v, ?_, ?_⟩
    · rw [alookup_cons, if_neg hpi]
      exact hv1
    · rw [alookup_cons, if_neg (fun he2 => hfresh i m' h' he2.symm)]
      exact hv2

theorem dom_extend {V : Type} (σ : List (Nat × V)) (p : Nat) (w : V)
    (hdom : ∀ i, (alookup σ i).isSome ↔ i < p) :
    ∀ i, (alookup ((p, w) :: σ) i).isSome ↔ i < p + 1 := by
  intro i
  rw [alookup_cons]
  by_cases hi : p = i
  · rw [if_pos hi]
    constructor
    · intro _; omega
    · intro _; rfl
  · rw [if_neg hi]
    rw [hdom i]
    omega

theorem dom_extend_hi {V : Type} (σ : List (Nat × V)) (base len : Nat) (w : V)
    (hdom : ∀ j, (alookup σ j).isSome ↔ base ≤ j ∧ j < base + len) :
    ∀ j, (alookup ((base + len, w) :: σ) j).isSome ↔ base ≤ j ∧ j < base + (len + 1) := by
  intro j
  rw [alookup_cons]
  by_cases hj : base + len = j
  · rw [if_pos hj]
    constructor
    · intro _; omega
    · intro _; rfl
  · rw [if_neg hj]
    rw [hdom j]
    omega

/-- The stored-call-value clause of the semantic invariant survives a
fresh binding above the new graph. -/
theorem henv_clause_extend {V : Type} (I : Interp V) (g : List Node) (p : Nat)
    (st : CseState) (hS : SInv g p st) (σn : List (Nat × V)) (w : V)
    (hcl : ∀ hv m', (hv, m') ∈ st.henv → ∃ vs kvs,
      evalArgs I σn m'.args = some vs ∧ evalKw I σn m'.kwargs = some kvs ∧
      alookup σn m'.id = some (I.call m'.op m'.target vs kvs)) :
    ∀ hv m', (hv, m') ∈ st.henv → ∃ vs kvs,
      evalArgs I ((st.base + st.newG.length, w) :: σn) m'.args = some vs ∧
      evalKw I ((st.base + st.newG.length, w) :: σn) m'.kwargs = some kvs ∧
      alookup ((st.base + st.newG.length, w) :: σn) m'.id =
        some (I.call m'.op m'.target vs kvs) := by
  intro hv m' hmem
  obtain ⟨vs, kvs, h1, h2, h3⟩ := hcl hv m' hmem
  have hmm : m' ∈ st.newG := (hS.henv_inv hv m' hmem).1
  obtain ⟨k, hk⟩ := get?_of_mem st.newG m' hmm
  obtain ⟨hkid, hkargs, hkkw⟩ := hS.newG_ids k m' hk
  have hklt : k < st.newG.length := get_lt_length st.newG k m' hk
  refine ⟨vs, kvs, ?_, ?_, ?_⟩
  · rw [evalArgs_ext I σn (st.base + st.newG.length) w st.base (st.base + k)
      (by omega) m'.args hkargs]
    exact h1
  · rw [evalKw_ext I σn (st.base + st.newG.length) w st.base (st.base + k)
      (by omega) m'.kwargs hkkw]
    exact h2
  · rw [alookup_cons, if_neg (by omega)]
    exact h3

theorem evalNode_op_placeholder {V : Type} (I : Interp V) (e : EvalSt V) (n : Node)
    (hop : n.op = .placeholder) :
    evalNode I e n = match e.ins with
      | [] => none
      | v :: rest => some ⟨(n.id, v) :: e.venv, rest, e.outs⟩ := by
  obtain ⟨nid, nop, ntg, nargs, nkw⟩ := n
  have h2 : nop = Op.placeholder := hop
  subst h2
  rfl

theorem evalNode_op_get_attr {V : Type} (I : Interp V) (e : EvalSt V) (n : Node)
    (hop : n.op = .get_attr) :
    evalNode I e n = some ⟨(n.id, I.attr n.target) :: e.venv, e.ins, e.outs⟩ := by
  obtain ⟨nid, nop, ntg, nargs, nkw⟩ := n
  have h2 : nop = Op.get_attr := hop
  subst h2
  rfl

theorem evalNode_op_output {V : Type} (I : Interp V) (e : EvalSt V) (n : Node)
    (hop : n.op = .output) :
    evalNode I e n = match evalArgs I e.venv n.args with
      | none => none
      | some vs => some ⟨(n.id, I.listV vs) :: e.venv, e.ins, e.outs ++ [I.listV vs]⟩ := by
  obtain ⟨nid, nop, ntg, nargs, nkw⟩ := n
  have h2 : nop = Op.output := hop
  subst h2
  rfl

/-- Call nodes evaluate through the uninterpreted call semantics. -/
theorem evalNode_call {V : Type} (I : Interp V) (e : EvalSt V) (n : Node)
    (hnc : nonCall n.op = false) :
    evalNode I e n = match evalArgs I e.venv n.args with
      | none => none
      | some vs =>
        match evalKw I e.venv n.kwargs with
        | none => none
        | some kvs => some ⟨(n.id, I.call n.op n.target vs kvs) :: e.venv, e.ins, e.outs⟩ := by
  obtain ⟨nid, nop, ntg, nargs, nkw⟩ := n
  cases nop with
  | placeholder => simp [nonCall] at hnc
  | output => simp [nonCall] at hnc
  | get_attr => simp [nonCall] at hnc
  | call_function => rfl
  | call_module => rfl
  | call_method => rfl

/-- Semantic invariant of the loop of `modify`: after `p` steps, the
first `p` old nodes and the whole new graph either both fail to
evaluate, or produce evaluation states with the same remaining inputs
and the same outputs, value environments linked along `env` with the
expected domains, and every `hash_env` entry holding its stored call
value. -/
def SemOk {V : Type} (I : Interp V) (ins : List V) (g : List Node) (p : Nat)
    (st : CseState) : Prop :=
  (evalNodes I ⟨[], ins, []⟩ (g.take p) = none ∧
    evalNodes I ⟨[], ins, []⟩ st.newG = none) ∨
  (∃ eo en, evalNodes I ⟨[], ins, []⟩ (g.take p) = some eo ∧
    evalNodes I ⟨[], ins, []⟩ st.newG = some en ∧
    eo.ins = en.ins ∧ eo.outs = en.outs ∧
    EnvSem st.env eo.venv en.venv ∧
    (∀ i, (alookup eo.venv i).isSome ↔ i < p) ∧
    (∀ j, (alookup en.venv j).isSome ↔ st.base ≤ j ∧ j < st.base + st.newG.length) ∧
    (∀ hv m, (hv, m) ∈ st.henv → ∃ vs kvs,
      evalArgs I en.venv m.args = some vs ∧ evalKw I en.venv m.kwargs = some kvs ∧
      alookup en.venv m.id = some (I.call m.op m.target vs kvs)))

/-- Assembling the success case of the semantic invariant after a copy
step, given the two matching node evaluations. -/
theorem SemOk_assemble {V : Type} (I : Interp V) (ins : List V) (g : List Node) (p : Nat)
    (st st2 : CseState) (n m : Node) (w : V) (ins2 outs2 : List V)
    (eo en : EvalSt V)
    (hg : g.get? p = some n) (hS : SInv g p st)
    (hid : n.id = p)
    (hmid : m.id = st.base + st.newG.length)
    (hmrefs : argsRefsIn st.base (st.base + st.newG.length) m.args = true)
    (hmkrefs : kwargsRefsIn st.base (st.base + st.newG.length) m.kwargs = true)
    (hmcall : nonCall n.op = false →
      ∃ vs kvs, evalArgs I en.venv m.args = some vs ∧
        evalKw I en.venv m.kwargs = some kvs ∧ w = I.call m.op m.target vs kvs)
    (hb : st2.base = st.base) (hng : st2.newG = st.newG ++ [m])
    (he : st2.env = (n.id, m) :: st.env)
    (hhe : (nonCall n.op = true ∧ st2.henv = st.henv) ∨
      (nonCall n.op = false ∧ st2.henv = (hashOf st.env n, m) :: st.henv))
    (heo : evalNodes I ⟨[], ins, []⟩ (g.take p) = some eo)
    (hen : evalNodes I ⟨[], ins, []⟩ st.newG = some en)
    (hlink : EnvSem st.env eo.venv en.venv)
    (hdomo : ∀ i, (alookup eo.venv i).isSome ↔ i < p)
    (hdomn : ∀ j, (alookup en.venv j).isSome ↔ st.base ≤ j ∧ j < st.base + st.newG.length)
    (hhcl : ∀ hv m', (hv, m') ∈ st.henv → ∃ vs kvs,
      evalArgs I en.venv m'.args = some vs ∧ evalKw I en.venv m'.kwargs = some kvs ∧
      alookup en.venv m'.id = some (I.call m'.op m'.target vs kvs))
    (hevo : evalNode I eo n = some ⟨(p, w) :: eo.venv, ins2, outs2⟩)
    (hevn : evalNode I en m = some ⟨(m.id, w) :: en.venv, ins2, outs2⟩) :
    SemOk I ins g (p + 1) st2 := by
  have htake := take_succ_of_get g p n hg
  right
  refine ⟨⟨(p, w) :: eo.venv, ins2, outs2⟩, ⟨(m.id, w) :: en.venv, ins2, outs2⟩,
    ?_, ?_, rfl, rfl, ?_, ?_, ?_, ?_⟩
  · rw [htake, evalNodes_append, heo]
    exact hevo
  · rw [hng, evalNodes_append, hen]
    exact hevn
  · rw [he, hid]
    exact EnvSem_extend st.env eo.venv en.venv p m w hlink
      (fun i m' h' => by have := hS.env_bound i m' h'; omega)
  · exact dom_extend eo.venv p w hdomo
  · rw [hb, hng, List.length_append, List.length_cons, List.length_nil]
    intro j
    have h2 := dom_extend_hi en.venv st.base st.newG.length w hdomn j
    rw [hmid, Nat.zero_add]
    exact h2
  · rcases hhe with ⟨hnct, hh⟩ | ⟨hncf, hh⟩
    · rw [hh]
      intro hv m' hmem
      have hext := henv_clause_extend I g p st hS en.venv w hhcl hv m' hmem
      rw [hmid]
      exact hext
    · rw [hh]
      intro hv m' hmem
      rcases List.mem_cons.mp hmem with hme | hmem2
      · have hm' : m' = m := congrArg Prod.snd hme
        obtain ⟨vs, kvs, hvs2, hkv2, hw⟩ := hmcall hncf
        refine ⟨vs, kvs, ?_, ?_, ?_⟩
        · rw [hm', hmid]
          rw [evalArgs_ext I en.venv (st.base + st.newG.length) w st.base
            (st.base + st.newG.length) (Or.inr le_rfl) m.args hmrefs]
          exact hvs2
        · rw [hm', hmid]
          rw [evalKw_ext I en.venv (st.base + st.newG.length) w st.base
            (st.base + st.newG.length) (Or.inr le_rfl) m.kwargs hmkrefs]
          exact hkv2
        · rw [hm', alookup_cons, if_pos rfl, hw]
      · have hext := henv_clause_extend I g p st hS en.venv w hhcl hv m' hmem2
        rw [hmid]
        exact hext

/-- The copy path preserves the semantic invariant. -/
theorem SemOk_copy {V : Type} (I : Interp V) (ins : List V) (g : List Node) (p : Nat)
    (st st2 : CseState) (n m : Node)
    (hwfg : wfGraph g = true) (hg : g.get? p = some n) (hS : SInv g p st)
    (hcp : copyNode st n = .ok m)
    (hb : st2.base = st.base) (hng : st2.newG = st.newG ++ [m])
    (he : st2.env = (n.id, m) :: st.env)
    (hhe : (nonCall n.op = true ∧ st2.henv = st.henv) ∨
      (nonCall n.op = false ∧ st2.henv = (hashOf st.env n, m) :: st.henv))
    (hsem : SemOk I ins g p st) :
    SemOk I ins g (p + 1) st2 := by
  have hple : p < g.length := get_lt_length g p n hg
  obtain ⟨hid, hargs0, hkw0⟩ := wfNode_of_get g p n hwfg hg
  have htake := take_succ_of_get g p n hg
  unfold copyNode at hcp
  cases hma : mapArgsRec st.env n.args with
  | error e => rw [hma] at hcp; exact absurd hcp (by simp)
  | ok args2 =>
    rw [hma] at hcp
    cases hmk : mapKwargsRec st.env n.kwargs with
    | error e => rw [hmk] at hcp; exact absurd hcp (by simp)
    | ok kw2 =>
      rw [hmk] at hcp
      have hm : m = ⟨st.base + st.newG.length, n.op, n.target, args2, kw2⟩ :=
        (Except.ok.inj hcp).symm
      have hmid : m.id = st.base + st.newG.length := congrArg Node.id hm
      have hmop : m.op = n.op := by rw [hm]
      have hmtg : m.target = n.target := by rw [hm]
      have hmargs : m.args = args2 := congrArg Node.args hm
      have hmkw : m.kwargs = kw2 := congrArg Node.kwargs hm
      have hma2 : mapArgsRec st.env n.args = .ok m.args := by rw [hmargs]; exact hma
      have hmk2 : mapKwargsRec st.env n.kwargs = .ok m.kwargs := by rw [hmkw]; exact hmk
      have hmrefs : argsRefsIn st.base (st.base + st.newG.length) m.args = true := by
        rw [hmargs]
        exact mapArgs_refs st.env st.base (st.base + st.newG.length)
          hS.env_bound n.args args2 hma
      have hmkrefs : kwargsRefsIn st.base (st.base + st.newG.length) m.kwargs = true := by
        rw [hmkw]
        exact mapKwargs_refs st.env st.base (st.base + st.newG.length)
          hS.env_bound n.kwargs kw2 hmk
      rcases hsem with ⟨ho, hn2⟩ | ⟨eo, en, heo, hen, hins, houts, hlink, hdomo, hdomn, hhcl⟩
      · left
        constructor
        · rw [htake, evalNodes_append, ho]
        · rw [hng, evalNodes_append, hn2]
      · cases hop : n.op with
        | placeholder =>
          have ho2 := evalNode_op_placeholder I eo n hop
          have hn3 := evalNode_op_placeholder I en m (by rw [hmop, hop])
          cases hins2 : eo.ins with
          | nil =>
            left
            constructor
            · rw [htake, evalNodes_append, heo]
              show evalNode I eo n = none
              rw [ho2, hins2]
            · rw [hng, evalNodes_append, hen]
              show evalNode I en m = none
              rw [hn3, ← hins, hins2]
          | cons v rest =>
            refine SemOk_assemble I ins g p st st2 n m v rest eo.outs eo en hg hS hid hmid
              hmrefs hmkrefs ?_ hb hng he hhe heo hen hlink hdomo hdomn hhcl ?_ ?_
            · intro hf
              rw [hop] at hf
              simp [nonCall] at hf
            · rw [ho2, hins2, hid]
            · rw [hn3, ← hins, hins2, houts]
        | get_attr =>
          have ho2 := evalNode_op_get_attr I eo n hop
          have hn3 := evalNode_op_get_attr I en m (by rw [hmop, hop])
          refine SemOk_assemble I ins g p st st2 n m (I.attr n.target) eo.ins eo.outs eo en
            hg hS hid hmid hmrefs hmkrefs ?_ hb hng he hhe heo hen hlink hdomo hdomn hhcl ?_ ?_
          · intro hf
            rw [hop] at hf
            simp [nonCall] at hf
          · rw [ho2, hid]
          · rw [hn3, hmtg, ← hins, houts]
        | output =>
          obtain ⟨vs, hvs1, hvs2⟩ := mapArgs_eval I st.env eo.venv en.venv hlink
            n.args m.args hma2
          have ho2 := evalNode_op_output I eo n hop
          have hn3 := evalNode_op_output I en m (by rw [hmop, hop])
          refine SemOk_assemble I ins g p st st2 n m (I.listV vs) eo.ins
            (eo.outs ++ [I.listV vs]) eo en hg hS hid hmid hmrefs hmkrefs ?_
            hb hng he hhe heo hen hlink hdomo hdomn hhcl ?_ ?_
          · intro hf
            rw [hop] at hf
            simp [nonCall] at hf
          · rw [ho2, hvs1, hid]
          · rw [hn3, hvs2, ← hins, houts]
        | call_function =>
          have hnc : nonCall n.op = false := by rw [hop]; rfl
          obtain ⟨vs, hvs1, hvs2⟩ := mapArgs_eval I st.env eo.venv en.venv hlink
            n.args m.args hma2
          obtain ⟨kvs, hkv1, hkv2⟩ := mapKwargs_eval I st.env eo.venv en.venv hlink
            n.kwargs m.kwargs hmk2
          have ho2 := evalNode_call I eo n hnc
          have hn3 := evalNode_call I en m (by rw [hmop]; exact hnc)
          refine SemOk_assemble I ins g p st st2 n m (I.call n.op n.target vs kvs) eo.ins
            eo.outs eo en hg hS hid hmid hmrefs hmkrefs ?_
            hb hng he hhe heo hen hlink hdomo hdomn hhcl ?_ ?_
          · intro _
            exact ⟨vs, kvs, hvs2, hkv2, by rw [hmop, hmtg]⟩
          · rw [ho2, hvs1, hkv1, hid]
          · rw [hn3, hvs2, hkv2, hmop, hmtg, ← hins, houts]
        | call_module =>
          have hnc : nonCall n.op = false := by rw [hop]; rfl
          obtain ⟨vs, hvs1, hvs2⟩ := mapArgs_eval I st.env eo.venv en.venv hlink
            n.args m.args hma2
          obtain ⟨kvs, hkv1, hkv2⟩ := mapKwargs_eval I st.env eo.venv en.venv hlink
            n.kwargs m.kwargs hmk2
          have ho2 := evalNode_call I eo n hnc
          have hn3 := evalNode_call I en m (by rw [hmop]; exact hnc)
          refine SemOk_assemble I ins g p st st2 n m (I.call n.op n.target vs kvs) eo.ins
            eo.outs eo en hg hS hid hmid hmrefs hmkrefs ?_
            hb hng he hhe heo hen hlink hdomo hdomn hhcl ?_ ?_
          · intro _
            exact ⟨vs, kvs, hvs2, hkv2, by rw [hmop, hmtg]⟩
          · rw [ho2, hvs1, hkv1, hid]
          · rw [hn3, hvs2, hkv2, hmop, hmtg, ← hins, houts]
        | call_method =>
          have hnc : nonCall n.op = false := by rw [hop]; rfl
          obtain ⟨vs, hvs1, hvs2⟩ := mapArgs_eval I st.env eo.venv en.venv hlink
            n.args m.args hma2
          obtain ⟨kvs, hkv1, hkv2⟩ := mapKwargs_eval I st.env eo.venv en.venv hlink
            n.kwargs m.kwargs hmk2
          have ho2 := evalNode_call I eo n hnc
          have hn3 := evalNode_call I en m (by rw [hmop]; exact hnc)
          refine SemOk_assemble I ins g p st st2 n m (I.call n.op n.target vs kvs) eo.ins
            eo.outs eo en hg hS hid hmid hmrefs hmkrefs ?_
            hb hng he hhe heo hen hlink hdomo hdomn hhcl ?_ ?_
          · intro _
            exact ⟨vs, kvs, hvs2, hkv2, by rw [hmop, hmtg]⟩
          · rw [ho2, hvs1, hkv1, hid]
          · rw [hn3, hvs2, hkv2, hmop, hmtg, ← hins, houts]

/-- The merge path preserves the semantic invariant: the reused node
already holds exactly the value the old node would compute. -/
theorem SemOk_merge {V : Type} (I : Interp V) (ins : List V) (g : List Node) (p : Nat)
    (st st2 : CseState) (n m : Node)
    (hwfg : wfGraph g = true) (hstso : stso g = true)
    (hg : g.get? p = some n) (hS : SInv g p st)
    (hnc : nonCall n.op = false)
    (hl : hlookup st.henv (hashOf st.env n) = some m)
    (hcs : check_same st.env m n = .ok true)
    (hb : st2.base = st.base) (hng : st2.newG = st.newG)
    (he : st2.env = (n.id, m) :: st.env) (hhe : st2.henv = st.henv)
    (hsem : SemOk I ins g p st) :
    SemOk I ins g (p + 1) st2 := by
  have hple : p < g.length := get_lt_length g p n hg
  obtain ⟨hid, hargs0, hkw0⟩ := wfNode_of_get g p n hwfg hg
  have htake := take_succ_of_get g p n hg
  rcases hsem with ⟨ho, hn2⟩ | ⟨eo, en, heo, hen, hins, houts, hlink, hdomo, hdomn, hhcl⟩
  · left
    constructor
    · rw [htake, evalNodes_append, ho]
    · rw [hng]
      exact hn2
  · obtain ⟨hmmem, hmnc, k0, n0, hk0, hk0lt, hn0nc, hmop0, hmtg0⟩ :=
      hS.henv_inv _ m (hlookup_mem st.henv _ m hl)
    obtain ⟨htgt, hlen, hzip, hmkw, hnkw⟩ := check_same_spec st.env m n hcs
    have hop_eq : n0.op = n.op := stso_spec g hstso n0 (mem_of_get? g k0 n0 hk0)
      n (mem_of_get? g p n hg) hn0nc hnc (by rw [← hmtg0]; exact htgt)
    have hmop : m.op = n.op := by rw [hmop0, hop_eq]
    obtain ⟨vs, kvs, hvs2, hkv2, hmval⟩ := hhcl _ m (hlookup_mem st.henv _ m hl)
    have hkvs : kvs = [] := by
      rw [hmkw] at hkv2
      exact (Option.some.inj hkv2).symm
    subst hkvs
    have hpt : ∀ na oa, (na, oa) ∈ m.args.zip n.args →
        evalArg I en.venv na = evalArg I eo.venv oa := by
      intro na oa hmem
      rcases hzip na oa hmem with heq | ⟨i, m2, hna, hoa, hienv⟩
      · obtain ⟨hna_mem, hoa_mem⟩ := List.of_mem_zip hmem
        obtain ⟨k1, hk1⟩ := get?_of_mem st.newG m hmmem
        obtain ⟨_, hk1args, _⟩ := hS.newG_ids k1 m hk1
        have hk1lt := get_lt_length st.newG k1 m hk1
        have hna_refs : argRefsIn st.base (st.base + st.newG.length) na = true :=
          argRefsIn_mono st.base (st.base + k1) st.base (st.base + st.newG.length)
            le_rfl (by omega) na
            (argsRefsIn_mem st.base (st.base + k1) m.args na hk1args hna_mem)
        have hoa_refs : argRefsIn 0 p oa = true :=
          argsRefsIn_mem 0 p n.args oa hargs0 hoa_mem
        rw [heq]
        exact evalArg_of_disjoint I en.venv eo.venv st.base (st.base + st.newG.length)
          0 p (by have := hS.base_eq; have := hS.p_le; omega) oa
          (by rw [← heq]; exact hna_refs) hoa_refs
      · obtain ⟨v, hv1, hv2⟩ := hlink i m2 hienv
        rw [hna, hoa]
        show alookup en.venv m2.id = alookup eo.venv i
        rw [hv2, hv1]
    have hargs_eq : evalArgs I en.venv m.args = evalArgs I eo.venv n.args :=
      zip_evalArgs_eq I en.venv eo.venv m.args n.args hlen hpt
    have hvs1 : evalArgs I eo.venv n.args = some vs := by
      rw [← hargs_eq]
      exact hvs2
    have hevo : evalNode I eo n =
        some ⟨(p, I.call n.op n.target vs []) :: eo.venv, eo.ins, eo.outs⟩ := by
      rw [evalNode_call I eo n hnc, hvs1, hnkw, hid]
      rfl
    right
    refine ⟨⟨(p, I.call n.op n.target vs []) :: eo.venv, eo.ins, eo.outs⟩, en,
      ?_, ?_, hins, houts, ?_, ?_, ?_, ?_⟩
    · rw [htake, evalNodes_append, heo]
      exact hevo
    · rw [hng]
      exact hen
    · rw [he, hid]
      intro i m' h'
      rw [alookup_cons] at h'
      split at h'
      · rename_i hpi
        have hm2 : m = m' := Option.some.inj h'
        refine ⟨I.call n.op n.target vs [], ?_, ?_⟩
        · show alookup ((p, I.call n.op n.target vs []) :: eo.venv) i = _
          rw [alookup_cons, if_pos hpi]
        · rw [← hm2, hmval, hmop, htgt]
      · rename_i hpi
        obtain ⟨v, hv1, hv2⟩ := hlink i m' h'
        refine ⟨v, ?_, hv2⟩
        show alookup ((p, I.call n.op n.target vs []) :: eo.venv) i = some v
        rw [alookup_cons, if_neg hpi]
        exact hv1
    · exact dom_extend eo.venv p _ hdomo
    · rw [hb, hng]
      exact hdomn
    · rw [hhe]
      exact hhcl

/-- One iteration of the loop of `modify` preserves the semantic
invariant (needs `stso` for the merge case, since `check_same` does not
compare ops). -/
theorem step_SemOk {V : Type} (I : Interp V) (ins : List V) (g : List Node) (p : Nat)
    (st st2 : CseState) (n : Node)
    (hwfg : wfGraph g = true) (hstso : stso g = true) (hg : g.get? p = some n)
    (hS : SInv g p st) (hsem : SemOk I ins g p st) (hstep : step st n = .ok st2) :
    SemOk I ins g (p + 1) st2 := by
  unfold step at hstep
  split at hstep
  · rename_i hnc
    cases hcp : copyNode st n with
    | error e => rw [hcp] at hstep; simp at hstep
    | ok m =>
      rw [hcp] at hstep
      simp only [Except.ok.injEq] at hstep
      exact SemOk_copy I ins g p st st2 n m hwfg hg hS hcp
        (by rw [← hstep]) (by rw [← hstep]) (by rw [← hstep])
        (.inl ⟨hnc, by rw [← hstep]⟩) hsem
  · rename_i hnc
    have hnc2 : nonCall n.op = false := by simpa using hnc
    cases hl : hlookup st.henv (hashOf st.env n) with
    | some m =>
      simp only [hl] at hstep
      cases hcs : check_same st.env m n with
      | error e => rw [hcs] at hstep; simp at hstep
      | ok b =>
        rw [hcs] at hstep
        cases b with
        | true =>
          simp only [Except.ok.injEq] at hstep
          exact SemOk_merge I ins g p st st2 n m hwfg hstso hg hS hnc2 hl hcs
            (by rw [← hstep]) (by rw [← hstep]) (by rw [← hstep]) (by rw [← hstep]) hsem
        | false =>
          replace hstep : copyCall st n (hashOf st.env n) = .ok st2 := hstep
          unfold copyCall at hstep
          cases hcp : copyNode st n with
          | error e => rw [hcp] at hstep; simp at hstep
          | ok m2 =>
            rw [hcp] at hstep
            simp only [Except.ok.injEq] at hstep
            exact SemOk_copy I ins g p st st2 n m2 hwfg hg hS hcp
              (by rw [← hstep]) (by rw [← hstep]) (by rw [← hstep])
              (.inr ⟨hnc2, by rw [← hstep]⟩) hsem
    | none =>
      simp only [hl] at hstep
      replace hstep : copyCall st n (hashOf st.env n) = .ok st2 := hstep
      unfold copyCall at hstep
      cases hcp : copyNode st n with
      | error e => rw [hcp] at hstep; simp at hstep
      | ok m2 =>
        rw [hcp] at hstep
        simp only [Except.ok.injEq] at hstep
        exact SemOk_copy I ins g p st st2 n m2 hwfg hg hS hcp
          (by rw [← hstep]) (by rw [← hstep]) (by rw [← hstep])
          (.inr ⟨hnc2, by rw [← hstep]⟩) hsem

/-- Loop induction: running `modifyAux` on the remaining nodes carries
both invariants to the end of the graph. -/
theorem modifyAux_inv {V : Type} (I : Interp V) (ins : List V) (g : List Node)
    (hwfg : wfGraph g = true) (hstso : stso g = true) :
    ∀ (rest : List Node) (p : Nat) (st st' : CseState),
    g.drop p = rest → SInv g p st → SemOk I ins g p st →
    modifyAux st rest = .ok st' →
    SInv g g.length st' ∧ SemOk I ins g g.length st'
  | [], p, st, st', hdrop, hS, hsem, hmod => by
    have hlen : g.length - p = 0 := by
      have h2 := congrArg List.length hdrop
      rw [List.length_drop] at h2
      simpa using h2
    have hpe : p = g.length := by
      have := hS.p_le
      omega
    have hst : st = st' := by simpa [modifyAux] using hmod
    rw [← hst, ← hpe]
    exact ⟨hS, hsem⟩
  | n :: rest, p, st, st', hdrop, hS, hsem, hmod => by
    have hg : g.get? p = some n := by
      have h2 : (g.drop p).get? 0 = some n := by rw [hdrop]; rfl
      rw [List.get?_drop] at h2
      simpa using h2
    have hdrop2 : g.drop (p + 1) = rest := by
      have h2 : (g.drop p).drop 1 = rest := by rw [hdrop]; rfl
      rw [List.drop_drop] at h2
      exact h2
    simp only [modifyAux] at hmod
    cases hstep : step st n with
    | error e => rw [hstep] at hmod; simp at hmod
    | ok st2 =>
      rw [hstep] at hmod
      have hS2 := step_SInv g p st st2 n hwfg hg hS hstep
      have hsem2 := step_SemOk I ins g p st st2 n hwfg hstso hg hS hsem hstep
      exact modifyAux_inv I ins g hwfg hstso rest (p + 1) st2 st' hdrop2 hS2 hsem2 hmod

/-- Structural-only loop induction (no interpretation needed). -/
theorem modifyAux_SInv (g : List Node) (hwfg : wfGraph g = true) :
    ∀ (rest : List Node) (p : Nat) (st st' : CseState),
    g.drop p = rest → SInv g p st → modifyAux st rest = .ok st' →
    SInv g g.length st'
  | [], p, st, st', hdrop, hS, hmod => by
    have hlen : g.length - p = 0 := by
      have h2 := congrArg List.length hdrop
      rw [List.length_drop] at h2
      simpa using h2
    have hpe : p = g.length := by
      have := hS.p_le
      omega
    have hst : st = st' := by simpa [modifyAux] using hmod
    rw [← hst, ← hpe]
    exact hS
  | n :: rest, p, st, st', hdrop, hS, hmod => by
    have hg : g.get? p = some n := by
      have h2 : (g.drop p).get? 0 = some n := by rw [hdrop]; rfl
      rw [List.get?_drop] at h2
      simpa using h2
    have hdrop2 : g.drop (p + 1) = rest := by
      have h2 : (g.drop p).drop 1 = rest := by rw [hdrop]; rfl
      rw [List.drop_drop] at h2
      exact h2
    simp only [modifyAux] at hmod
    cases hstep : step st n with
    | error e => rw [hstep] at hmod; simp at hmod
    | ok st2 =>
      rw [hstep] at hmod
      exact modifyAux_SInv g hwfg rest (p + 1) st2 st'
        hdrop2 (step_SInv g p st st2 n hwfg hg hS hstep) hmod

theorem SInv_init (g : List Node) : SInv g 0 (initState g) := by
  refine ⟨rfl, le_rfl, Nat.zero_le _, ?_, ?_, ?_, ?_, ?_, ?_, ?_⟩
  · intro k m h
    simp [initState] at h
  · intro i
    constructor
    · intro h
      simp [initState, alookup] at h
    · intro h
      omega
  · intro i m h
    simp [initState, alookup] at h
  · intro i m h
    simp [initState, alookup] at h
  · intro hv m h
    simp [initState] at h
  · intro k n0 _ hk _
    omega
  · intro k1 k2 n1 n2 m1 m2 _ hk2 _ _ _ _ _ _
    omega

theorem SemOk_init {V : Type} (I : Interp V) (ins : List V) (g : List Node) :
    SemOk I ins g 0 (initState g) := by
  right
  refine ⟨⟨[], ins, []⟩, ⟨[], ins, []⟩, rfl, rfl, rfl, rfl, ?_, ?_, ?_, ?_⟩
  · intro i m h
    simp [initState, alookup] at h
  · intro i
    constructor
    · intro h
      simp [alookup] at h
    · intro h
      omega
  · intro j
    constructor
    · intro h
      simp [alookup] at h
    · intro h
      simp [initState] at h
      omega
  · intro hv m h
    simp [initState] at h

/-- Interpretation over `Nat` that distinguishes ops: a `call_method`
call and a `call_module` call with the same arguments return different
values, as two distinct Python callables would. -/
def INat : Interp Nat :=
  ⟨fun op _ vs _ => (match op with
      | Op.call_method => 1
      | Op.call_module => 2
      | _ => 0) + 10 * vs.sum,
    fun _ => 0, Int.toNat, fun vs => vs.foldl (fun a b => a * 1000 + b) 0⟩

/-- A graph with a `call_method` node and a `call_module` node sharing
the target `"foo"` and the same argument. -/
def cgC1 : List Node :=
  [⟨0, .placeholder, "x", [], []⟩,
   ⟨1, .call_method, "foo", [.node 0], []⟩,
   ⟨2, .call_module, "foo", [.node 0], []⟩,
   ⟨3, .output, "", [.node 1, .node 2], []⟩]

/-- What `modify` returns on `cgC1`: the two distinct call nodes were
merged because `check_same` never compares `op`. -/
def cgC1new : List Node :=
  [⟨4, .placeholder, "x", [], []⟩,
   ⟨5, .call_method, "foo", [.node 4], []⟩,
   ⟨6, .output, "", [.node 5, .node 5], []⟩]

/-- A graph on which the CSE merge is semantics-preserving: two
identical `call_function` nodes. -/
def cse_g0 : List Node :=
  [⟨0, .placeholder, "x", [], []⟩,
   ⟨1, .call_function, "f", [.node 0], []⟩,
   ⟨2, .call_function, "f", [.node 0], []⟩,
   ⟨3, .output, "", [.node 1, .node 2], []⟩]

def cse_g0new : List Node :=
  [⟨4, .placeholder, "x", [], []⟩,
   ⟨5, .call_function, "f", [.node 4], []⟩,
   ⟨6, .output, "", [.node 5, .node 5], []⟩]

/-- A graph with two equal call nodes carrying a (non-empty) keyword
argument. -/
def cgC3 : List Node :=
  [⟨0, .placeholder, "x", [], []⟩,
   ⟨1, .call_function, "f", [.node 0], [("k", .const 1)]⟩,
   ⟨2, .call_function, "f", [.node 0], [("k", .const 1)]⟩,
   ⟨3, .output, "", [.node 1, .node 2], []⟩]

/-- C1 (counterexample): the CSE pass is not semantics-preserving on
every well-formed graph.  `check_same` compares target, args and kwargs
but never `op`, so on `cgC1` the `call_module` node is merged into the
`call_method` node with the same target, and the transformed graph
computes a different output. -/
theorem cse_modify_not_semantics_preserving :
    wfGraph cgC1 = true ∧ stso cgC1 = false ∧ modify cgC1 = .ok cgC1new ∧
    evalGraph INat cgC1 [5] ≠ evalGraph INat cgC1new [5] :=
  ⟨rfl, rfl, rfl, by decide⟩

/-- C1 (amended): on a well-formed graph in which any two call nodes
sharing a target have the same op (true of graphs traced from a single
namespace, and exactly the condition `check_same`'s target comparison
implicitly assumes), a successful run of `modify` preserves graph
semantics: the returned graph evaluates to the same outputs on the same
inputs, for every interpretation of the opaque call semantics. -/
theorem cse_modify_preserves_semantics {V : Type} (I : Interp V) (g g2 : List Node)
    (ins : List V) (hwfg : wfGraph g = true) (hstso : stso g = true)
    (hmod : modify g = .ok g2) :
    evalGraph I g ins = evalGraph I g2 ins := by
  unfold modify at hmod
  cases hfull : modifyFull g with
  | error e => rw [hfull] at hmod; simp at hmod
  | ok st =>
    rw [hfull] at hmod
    simp only [Except.ok.injEq] at hmod
    unfold modifyFull at hfull
    obtain ⟨hSf, hsemf⟩ := modifyAux_inv I ins g hwfg hstso g 0 (initState g) st rfl
      (SInv_init g) (SemOk_init I ins g) hfull
    rw [← hmod]
    rcases hsemf with ⟨ho, hn⟩ | ⟨eo, en, heo, hen, hins2, houts, _, _, _, _⟩
    · unfold evalGraph
      rw [List.take_length] at ho
      rw [ho, hn]
    · unfold evalGraph
      rw [List.take_length] at heo
      rw [heo, hen]
      show some eo.outs = some en.outs
      rw [houts]

/-- C1 (witness): a concrete graph with a genuine merge on which the
amended preservation theorem applies. -/
theorem cse_modify_preserves_semantics_witness :
    wfGraph cse_g0 = true ∧ stso cse_g0 = true ∧ modify cse_g0 = .ok cse_g0new ∧
    evalGraph INat cse_g0 [7] = evalGraph INat cse_g0new [7] :=
  ⟨rfl, rfl, rfl,
    cse_modify_preserves_semantics INat cse_g0 cse_g0new [7] rfl rfl rfl⟩

/-- Completeness of the index loop of `check_args`: pairs that are
syntactically equal or top-level node references linked through `env`
make the loop return `True`. -/
theorem check_args_loop_complete (env : Env) :
    ∀ ps : List (Arg × Arg),
    (∀ na oa, (na, oa) ∈ ps → na = oa ∨
      ∃ i m2, na = .node m2.id ∧ oa = .node i ∧ alookup env i = some m2) →
    check_args_loop env ps = .ok true
  | [], _ => rfl
  | (na, oa) :: rest, h => by
    have hrec := check_args_loop_complete env rest
      (fun na' oa' hm => h na' oa' (List.mem_cons_of_mem _ hm))
    rcases h na oa (List.mem_cons_self _ _) with heq | ⟨i, m2, hna, hoa, henv⟩
    · subst heq
      simp only [check_args_loop, if_pos rfl]
      exact hrec
    · subst hna
      subst hoa
      simp only [check_args_loop]
      split
      · exact hrec
      · simp only [henv]
        rw [if_pos trivial]
        exact hrec

/-- Completeness of `check_same`: equal targets, element-for-element
equal args whose node references occur only at top level and are linked
through `env`, and empty kwargs on both sides make it return `True`. -/
theorem check_same_complete (env : Env) (m n : Node)
    (htgt : m.target = n.target) (hlen : m.args.length = n.args.length)
    (hzip : ∀ na oa, (na, oa) ∈ m.args.zip n.args → na = oa ∨
      ∃ i m2, na = .node m2.id ∧ oa = .node i ∧ alookup env i = some m2)
    (hmk : m.kwargs = []) (hnk : n.kwargs = []) :
    check_same env m n = .ok true := by
  have hca : check_args env m.args n.args = .ok true := by
    unfold check_args
    rw [if_neg (by simp [hlen])]
    exact check_args_loop_complete env (m.args.zip n.args) hzip
  have hck : check_kwargs m.kwargs n.kwargs = .ok true := by
    rw [hmk, hnk]
    rfl
  have h1 : check_same env m n = (match check_kwargs m.kwargs n.kwargs with
      | .error e => .error e
      | .ok b2 => if !b2 then .ok false else .ok true) := by
    unfold check_same
    rw [if_neg (by simp [htgt]), hca]
    rfl
  rw [h1, hck]
  rfl

/-- A graph with two element-for-element identical call nodes whose
shared argument nests a node reference inside a list (as a call to
`cat` would). -/
def cgC2 : List Node :=
  [⟨0, .placeholder, "x", [], []⟩,
   ⟨1, .call_function, "cat", [.list [.node 0]], []⟩,
   ⟨2, .call_function, "cat", [.list [.node 0]], []⟩,
   ⟨3, .output, "", [.node 1, .node 2], []⟩]

/-- What `modify` returns on `cgC2`: the duplicate call node is copied
again (id 6), not merged into the first copy (id 5), because the
top-level mapping loop leaves lists untouched and `check_same` then
compares the copy's mapped list against the old unmapped one. -/
def cgC2new : List Node :=
  [⟨4, .placeholder, "x", [], []⟩,
   ⟨5, .call_function, "cat", [.list [.node 4]], []⟩,
   ⟨6, .call_function, "cat", [.list [.node 4]], []⟩,
   ⟨7, .output, "", [.node 5, .node 6], []⟩]

/-- C2 (counterexample): `modify` does duplicate work on two identical
call nodes whose equal args nest a node reference inside a list: the
run succeeds, the output has as many nodes as the input, and the second
call node is mapped to a fresh copy (id 6) rather than to the first
copy (id 5). -/
theorem cse_modify_duplicates_nested_args :
    wfGraph cgC2 = true ∧
    (∃ n1 n2, cgC2.get? 1 = some n1 ∧ cgC2.get? 2 = some n2 ∧
      nonCall n1.op = false ∧ n1.target = n2.target ∧
      n1.args = n2.args ∧ n1.kwargs = n2.kwargs) ∧
    modify cgC2 = .ok cgC2new ∧ cgC2new.length = cgC2.length ∧
    (∃ st, modifyFull cgC2 = .ok st ∧
      (alookup st.env 1).map Node.id = some 5 ∧
      (alookup st.env 2).map Node.id = some 6) :=
  ⟨rfl, ⟨_, _, rfl, rfl, rfl, rfl, rfl, rfl⟩, rfl, rfl, ⟨_, rfl, rfl, rfl⟩⟩

/-- C2 (amended): a successful `modify` never increases the node count,
and a call node is merged (bound to the stored copy, with no new node
appended) under the duplicate check the program actually performs: its
hash hits a `hash_env` entry `m` whose target equals the node's, whose
args equal the node's element-for-element — each position syntactically
identical or a top-level node reference mapped through `env` — and both
kwargs are empty.  (Equal args nesting node references inside lists
fail this check and are copied again: see the counterexample.) -/
theorem cse_modify_no_duplication (g g2 : List Node) (hwfg : wfGraph g = true)
    (hmod : modify g = .ok g2) :
    g2.length ≤ g.length ∧
    (∀ (st : CseState) (n m : Node), nonCall n.op = false →
      hlookup st.henv (hashOf st.env n) = some m →
      m.target = n.target → m.args.length = n.args.length →
      (∀ na oa, (na, oa) ∈ m.args.zip n.args → na = oa ∨
        ∃ i m2, na = .node m2.id ∧ oa = .node i ∧ alookup st.env i = some m2) →
      m.kwargs = [] → n.kwargs = [] →
      step st n = .ok { st with env := (n.id, m) :: st.env }) := by
  constructor
  · unfold modify at hmod
    cases hfull : modifyFull g with
    | error e => rw [hfull] at hmod; simp at hmod
    | ok st =>
      rw [hfull] at hmod
      simp only [Except.ok.injEq] at hmod
      unfold modifyFull at hfull
      have hSf := modifyAux_SInv g hwfg g 0 (initState g) st rfl (SInv_init g) hfull
      rw [← hmod]
      exact hSf.len_le
  · intro st n m hnc hl htgt hlen hzip hmk hnk
    have hcs : check_same st.env m n = .ok true :=
      check_same_complete st.env m n htgt hlen hzip hmk hnk
    unfold step
    rw [if_neg (by simp [hnc])]
    simp only [hl, hcs]

/-- The loop state of the `cse_g0` run just before its second call node
is processed. -/
def cse_st1 : CseState :=
  ⟨4, [⟨4, .placeholder, "x", [], []⟩, ⟨5, .call_function, "f", [.node 4], []⟩],
   [(1, ⟨5, .call_function, "f", [.node 4], []⟩), (0, ⟨4, .placeholder, "x", [], []⟩)],
   [(("f", [.node 4], []), ⟨5, .call_function, "f", [.node 4], []⟩)]⟩

def cse_n2 : Node := ⟨2, .call_function, "f", [.node 0], []⟩

/-- C2 (witness): on `cse_g0` the duplicate call is eliminated, and the
merge clause fires at the concrete loop state reached before the second
call node: it is bound to the first copy with no node appended. -/
theorem cse_modify_no_duplication_witness :
    wfGraph cse_g0 = true ∧ modify cse_g0 = .ok cse_g0new ∧
    cse_g0new.length ≤ cse_g0.length ∧
    step cse_st1 cse_n2 = .ok { cse_st1 with
      env := (cse_n2.id, ⟨5, .call_function, "f", [.node 4], []⟩) :: cse_st1.env } :=
  ⟨rfl, rfl, (cse_modify_no_duplication cse_g0 cse_g0new rfl rfl).1,
    (cse_modify_no_duplication cse_g0 cse_g0new rfl rfl).2 cse_st1 cse_n2
      ⟨5, .call_function, "f", [.node 4], []⟩ rfl rfl rfl rfl
      (by
        intro na oa hmem
        simp [cse_n2] at hmem
        obtain ⟨h1, h2⟩ := hmem
        subst h1
        subst h2
        exact .inr ⟨0, ⟨4, .placeholder, "x", [], []⟩, rfl, rfl, rfl⟩) rfl rfl⟩

/-- C3: on a well-formed graph with two equal call nodes carrying the
same non-empty kwargs, `modify` raises an uncaught KeyError:
`check_args` indexes the kwargs dict with integer positions. -/
theorem cse_kwargs_keyerror :
    wfGraph cgC3 = true ∧ modify cgC3 = .error .keyError :=
  ⟨rfl, rfl⟩

/-- C4: after a successful `modify`, every placeholder, output and
get_attr node of the input has its own copy in the output graph (found
through `env`), with the same op and target and with argument nodes
replaced by their new-graph counterparts; distinct non-call nodes get
distinct copies appearing in input order (their ids are strictly
increasing in the input position). -/
theorem cse_noncall_nodes_copied (g g2 : List Node) (hwfg : wfGraph g = true)
    (hmod : modify g = .ok g2) :
    ∃ env : Env, ∀ k n0, g.get? k = some n0 → nonCall n0.op = true →
      ∃ m, alookup env k = some m ∧ m ∈ g2 ∧ m.op = n0.op ∧ m.target = n0.target ∧
        mapArgsRec env n0.args = .ok m.args ∧ mapKwargsRec env n0.kwargs = .ok m.kwargs ∧
        ∀ k2 n2 m2, g.get? k2 = some n2 → nonCall n2.op = true → k < k2 →
          alookup env k2 = some m2 → m.id < m2.id := by
  unfold modify at hmod
  cases hfull : modifyFull g with
  | error e => rw [hfull] at hmod; simp at hmod
  | ok st =>
    rw [hfull] at hmod
    simp only [Except.ok.injEq] at hmod
    unfold modifyFull at hfull
    have hSf := modifyAux_SInv g hwfg g 0 (initState g) st rfl (SInv_init g) hfull
    refine ⟨st.env, ?_⟩
    intro k n0 hget hnc
    have hk : k < g.length := get_lt_length g k n0 hget
    obtain ⟨m, h1, h2, h3, h4, h5, h6⟩ := hSf.copies k n0 hget hk hnc
    refine ⟨m, h1, by rw [← hmod]; exact h2, h3, h4, h5, h6, ?_⟩
    intro k2 n2 m2 hget2 hnc2 hkk hl2
    have hk2 : k2 < g.length := get_lt_length g k2 n2 hget2
    exact hSf.mono k k2 n0 n2 m m2 hkk hk2 hget hget2 hnc hnc2 h1 hl2

/-- C4 (witness): the three non-call nodes of `cse_g0` are all copied,
in order, into the output graph. -/
theorem cse_noncall_nodes_copied_witness :
    wfGraph cse_g0 = true ∧ modify cse_g0 = .ok cse_g0new ∧
    (∃ env : Env, ∀ k n0, cse_g0.get? k = some n0 → nonCall n0.op = true →
      ∃ m, alookup env k = some m ∧ m ∈ cse_g0new ∧ m.op = n0.op ∧ m.target = n0.target ∧
        mapArgsRec env n0.args = .ok m.args ∧ mapKwargsRec env n0.kwargs = .ok m.kwargs ∧
        ∀ k2 n2 m2, cse_g0.get? k2 = some n2 → nonCall n2.op = true → k < k2 →
          alookup env k2 = some m2 → m.id < m2.id) :=
  ⟨rfl, rfl, cse_noncall_nodes_copied cse_g0 cse_g0new rfl rfl⟩

end Cse
